import Mathlib

/-!
A verification development for the QOI ("Quite OK Image") codec of this
repository.  The definitions below are a shallow embedding of the Go source:
byte streams are `List Nat` with elements `< 256`, machine bytes wrap with an
explicit `% 256`, Go's `int8` arithmetic wraps through `toInt8`, and the two
`uint32` computations of the decoder keep their `% 2 ^ 32` reductions.
-/

namespace QOI

/-- One RGBA pixel: the `pixel [4]byte` of the source.  Each channel is a byte
value kept as a `Nat`; contexts maintain `< 256` through `Pixel.valid`. -/
structure Pixel where
  r : Nat
  g : Nat
  b : Nat
  a : Nat
deriving DecidableEq, Repr

/-- All four channels of the pixel are byte values. -/
def Pixel.valid (p : Pixel) : Prop := p.r < 256 ∧ p.g < 256 ∧ p.b < 256 ∧ p.a < 256

instance (p : Pixel) : Decidable p.valid :=
  inferInstanceAs (Decidable (_ ∧ _ ∧ _ ∧ _))

/-- The zero pixel: initial content of every slot of the 64-entry cache. -/
def zeroPx : Pixel := ⟨0, 0, 0, 0⟩

/-- The implicit previous pixel at the start of encode and decode:
`pixel{0, 0, 0, 255}` (opaque black). -/
def initPx : Pixel := ⟨0, 0, 0, 255⟩

/-- `qoi_COLOR_HASH` of the source: `byte(r*3 + g*5 + b*7 + a*11)`.  The Go
expression multiplies and adds bytes, which wrap; the net result is the sum
reduced mod 256. -/
def qoi_COLOR_HASH (p : Pixel) : Nat := (p.r * 3 + p.g * 5 + p.b * 7 + p.a * 11) % 256

/-- Cache slot of a pixel: `qoi_COLOR_HASH(...) & 0b111111`. -/
def posOf (p : Pixel) : Nat := qoi_COLOR_HASH p % 64

/-- The pixel-history cache at the start of every encode or decode call:
`var index [64]pixel`, all slots the zero pixel. -/
def initialCache : List Pixel := List.replicate 64 zeroPx

/-- Go's conversion of an integer to `int8` (two's-complement wrap into
`[-128, 127]`). -/
def toInt8 (x : Int) : Int := (x + 128) % 256 - 128

/-- `qoiPixelsMax` of the source. -/
def qoiPixelsMax : Nat := 400000000

/-- The four magic bytes, ASCII "qoif". -/
def qoiMagicBytes : List Nat := [113, 111, 105, 102]

/-- The 8-byte end marker the encoder appends (`uint32(0)` then `uint32(1)`,
big-endian), identical to the source's `qoiEnd`. -/
def qoiEnd : List Nat := [0, 0, 0, 0, 0, 0, 0, 1]

/-- Big-endian bytes of a 32-bit value (`binary.Write` of a `uint32`).
Callers pass values already reduced mod `2 ^ 32`. -/
def be32 (v : Nat) : List Nat := [v / 2 ^ 24 % 256, v / 2 ^ 16 % 256, v / 2 ^ 8 % 256, v % 256]

/-- The 14 header bytes `Encode` writes: magic, width, height (both converted
through `uint32(...)`), the channel count, and colorspace 0. -/
def headerBytes (width height channels : Nat) : List Nat :=
  qoiMagicBytes ++ be32 (width % 2 ^ 32) ++ be32 (height % 2 ^ 32) ++ [channels, 0]

/-- `Header` of the source (magic bytes kept as a list). -/
structure Header where
  magic : List Nat
  width : Nat
  height : Nat
  channels : Nat
  colorspace : Nat
deriving DecidableEq, Repr

/-- The distinct failure cases of `DecodeHeader`: one truncation error per
field, then magic, channel-count and colorspace validation. -/
inductive HeaderError
  | magicEOF
  | widthEOF
  | heightEOF
  | channelsEOF
  | colorspaceEOF
  | badMagic
  | badChannels (c : Nat)
  | badColorspace (c : Nat)
deriving DecidableEq, Repr

/-- Big-endian `uint32` read at a byte offset. -/
def rd32At (s : List Nat) (off : Nat) : Nat :=
  s.getD off 0 * 2 ^ 24 + s.getD (off + 1) 0 * 2 ^ 16 + s.getD (off + 2) 0 * 2 ^ 8
    + s.getD (off + 3) 0

/-- `DecodeHeader` of the source: five consecutive `binary.Read`s (each failing
if the stream ends before the field is complete), then the magic, channel and
colorspace checks, in that order. -/
def DecodeHeader (s : List Nat) : Except HeaderError Header :=
  if s.length < 4 then .error .magicEOF
  else if s.length < 8 then .error .widthEOF
  else if s.length < 12 then .error .heightEOF
  else if s.length < 13 then .error .channelsEOF
  else if s.length < 14 then .error .colorspaceEOF
  else
    let m := [s.getD 0 0, s.getD 1 0, s.getD 2 0, s.getD 3 0]
    let w := rd32At s 4
    let ht := rd32At s 8
    let c := s.getD 12 0
    let cs := s.getD 13 0
    if m ≠ qoiMagicBytes then .error .badMagic
    else if c < 3 ∨ 4 < c then .error (.badChannels c)
    else if cs ≠ 0 ∧ cs ≠ 1 then .error (.badColorspace cs)
    else .ok ⟨m, w, ht, c, cs⟩

/-- Errors of the decode loop; all of them are stream-truncation errors
(`io.EOF` on a tag byte, `io.ReadFull` on an RGB/RGBA payload, `ReadByte` on
the second LUMA byte). -/
inductive DecErr
  | eofTag
  | eofRGB
  | eofRGBA
  | eofLuma
deriving DecidableEq, Repr

/-- The decode loop of `Decode` (the `for numDecodedPixels < numPixels` loop).
The first argument is the number of pixels still to produce; the result is the
pixels produced in order, the unread remainder of the stream, and the error, if
any.  Iterations with a pending run consume it without reading; otherwise one
tag byte is read and dispatched, and the cache slot `posOf` of the freshly
computed pixel is overwritten. -/
def decodeLoop : Nat → List Nat → List Pixel → Pixel → Nat →
    List Pixel × List Nat × Option DecErr
  | 0, bytes, _, _, _ => ([], bytes, none)
  | n + 1, bytes, cache, px, run =>
    if 0 < run then
      let r := decodeLoop n bytes cache px (run - 1)
      (px :: r.1, r.2.1, r.2.2)
    else
      match bytes with
      | [] => ([], [], some .eofTag)
      | b1 :: bs =>
        if b1 = 254 then
          match bs with
          | rB :: gB :: bB :: bs2 =>
            let q : Pixel := ⟨rB, gB, bB, px.a⟩
            let r := decodeLoop n bs2 (cache.set (posOf q) q) q 0
            (q :: r.1, r.2.1, r.2.2)
          | _ => ([], [], some .eofRGB)
        else if b1 = 255 then
          match bs with
          | rB :: gB :: bB :: aB :: bs2 =>
            let q : Pixel := ⟨rB, gB, bB, aB⟩
            let r := decodeLoop n bs2 (cache.set (posOf q) q) q 0
            (q :: r.1, r.2.1, r.2.2)
          | _ => ([], [], some .eofRGBA)
        else if b1 / 64 = 0 then
          let q := cache.getD b1 zeroPx
          let r := decodeLoop n bs (cache.set (posOf q) q) q 0
          (q :: r.1, r.2.1, r.2.2)
        else if b1 / 64 = 1 then
          let q : Pixel := ⟨(px.r + (b1 / 16 % 4 + 254) % 256) % 256,
                            (px.g + (b1 / 4 % 4 + 254) % 256) % 256,
                            (px.b + (b1 % 4 + 254) % 256) % 256, px.a⟩
          let r := decodeLoop n bs (cache.set (posOf q) q) q 0
          (q :: r.1, r.2.1, r.2.2)
        else if b1 / 64 = 2 then
          match bs with
          | b2 :: bs2 =>
            let vg := (b1 % 64 + 224) % 256
            let q : Pixel := ⟨(px.r + ((vg + 248) % 256 + b2 / 16 % 16) % 256) % 256,
                              (px.g + vg) % 256,
                              (px.b + ((vg + 248) % 256 + b2 % 16) % 256) % 256, px.a⟩
            let r := decodeLoop n bs2 (cache.set (posOf q) q) q 0
            (q :: r.1, r.2.1, r.2.2)
          | [] => ([], [], some .eofLuma)
        else
          let r := decodeLoop n bs (cache.set (posOf px) px) px (b1 % 64)
          (px :: r.1, r.2.1, r.2.2)

/-- Top-level decode error: header failure, destination-capacity failure, or a
truncation inside the body. -/
inductive DecodeError
  | header (e : HeaderError)
  | capacity
  | body (e : DecErr)
deriving DecidableEq, Repr

/-- Whether an error reports a truncated stream (spec kind "truncated-stream":
the source was exhausted mid-header or mid-chunk). -/
def DecodeError.isTruncation : DecodeError → Bool
  | .header .magicEOF => true
  | .header .widthEOF => true
  | .header .heightEOF => true
  | .header .channelsEOF => true
  | .header .colorspaceEOF => true
  | .header _ => false
  | .capacity => false
  | .body _ => true

/-- Bytes of one pixel as written to the destination:
`copy(dest[:bytesPerPixel], px[:bytesPerPixel])`. -/
def pixelBytes (bpp : Nat) (p : Pixel) : List Nat :=
  if bpp = 4 then [p.r, p.g, p.b, p.a] else [p.r, p.g, p.b]

/-- The destination bytes produced by a list of decoded pixels, in order. -/
def bytesOfPixels (bpp : Nat) : List Pixel → List Nat
  | [] => []
  | p :: ps => pixelBytes bpp p ++ bytesOfPixels bpp ps

/-- The five return values of `Decode`, plus `written`: the bytes the call
stores into the destination, starting at offset 0.  The caller's buffer after
the call is `written ++ dest.drop written.length`, since the loop writes the
pixels' bytes consecutively from the front. -/
structure DecodeOut where
  bytesWritten : Nat
  width : Nat
  height : Nat
  includesAlpha : Bool
  err : Option DecodeError
  written : List Nat
deriving DecidableEq, Repr

/-- `Decode` of the source (`src/unnamed/part_001`).  `destLen` is the length
of the caller's destination slice.  `numPixels` is the `uint32` product of the
header dimensions, and the capacity check compares against
`uint32(len(dest)) / uint32(bytesPerPixel)`, hence both `% 2 ^ 32`. -/
def Decode (stream : List Nat) (destLen : Nat) : DecodeOut :=
  match DecodeHeader stream with
  | .error e => ⟨0, 0, 0, false, some (.header e), []⟩
  | .ok h =>
    let numPixels := h.width * h.height % 2 ^ 32
    if numPixels = 0 then ⟨0, 0, 0, false, none, []⟩
    else
      let bytesPerPixel := h.channels
      if destLen % 2 ^ 32 / bytesPerPixel < numPixels then
        ⟨0, 0, 0, false, some .capacity, []⟩
      else
        let r := decodeLoop numPixels (stream.drop 14) initialCache initPx 0
        ⟨r.1.length * bytesPerPixel, h.width, h.height, h.channels == 4,
          r.2.2.map .body, bytesOfPixels bytesPerPixel r.1⟩

/-- The chunk a pixel gets when it differs from the previous pixel and misses
the cache: the DIFF / LUMA / RGB / RGBA selection of `Encode`.  `vr`, `vg`,
`vb` are Go `int8` values (differences wrapped into `[-128, 127]`), and
`vg_r`, `vg_b` are `int8` subtractions, which wrap again.  The tag is OR-ed
with payload bits living in disjoint positions, rendered here as addition. -/
def encChunkBytes (px px_prev : Pixel) : List Nat :=
  if px.a = px_prev.a then
    let vr := toInt8 ((px.r : Int) - (px_prev.r : Int))
    let vg := toInt8 ((px.g : Int) - (px_prev.g : Int))
    let vb := toInt8 ((px.b : Int) - (px_prev.b : Int))
    if -3 < vr ∧ vr < 2 ∧ -3 < vg ∧ vg < 2 ∧ -3 < vb ∧ vb < 2 then
      [64 + (16 * (vr + 2).toNat + 4 * (vg + 2).toNat + (vb + 2).toNat)]
    else
      let vg_r := toInt8 (vr - vg)
      let vg_b := toInt8 (vb - vg)
      if -9 < vg_r ∧ vg_r < 8 ∧ -33 < vg ∧ vg < 32 ∧ -9 < vg_b ∧ vg_b < 8 then
        [128 + (vg + 32).toNat, 16 * (vg_r + 8).toNat + (vg_b + 8).toNat]
      else
        [254, px.r, px.g, px.b]
  else
    [255, px.r, px.g, px.b, px.a]

/-- The pixel loop of `Encode`.  A pixel equal to the previous one only grows
the run counter, which is flushed as the byte `qoi_RUN | (run - 1)` when it
reaches 62 or at the last pixel of the image (`rest = []` stands for the
source's `x == widthMinusOne && y == heightMinusOne`); a differing pixel first
flushes any pending run, then is emitted as an INDEX chunk on a cache hit or
stored in the cache and emitted through `encChunkBytes`. -/
def encodeLoop : List Pixel → List Pixel → Pixel → Nat → List Nat
  | [], _, _, _ => []
  | px :: rest, cache, px_prev, run =>
    if px = px_prev then
      if run + 1 = 62 ∨ rest = [] then
        (192 + run) :: encodeLoop rest cache px_prev 0
      else
        encodeLoop rest cache px_prev (run + 1)
    else
      (if 0 < run then [192 + (run - 1)] else [])
        ++ (if cache.getD (posOf px) zeroPx = px then
              posOf px :: encodeLoop rest cache px 0
            else
              encChunkBytes px px_prev ++ encodeLoop rest (cache.set (posOf px) px) px 0)

/-- The pixel the encoder reads at raster position `k` from a flat byte
buffer: `src[k*bpp ..]`, with alpha 255 when the buffer has no alpha channel.
This list-of-`Nat` form works down the buffer by `drop bpp` per pixel, which
reads the same bytes as the source's `src[(y*width+x)*bytesPerPixel + c]`. -/
def pixelsOfBytes (bpp : Nat) : Nat → List Nat → List Pixel
  | 0, _ => []
  | n + 1, src =>
    ⟨src.getD 0 0, src.getD 1 0, src.getD 2 0, if bpp = 4 then src.getD 3 0 else 255⟩
      :: pixelsOfBytes bpp n (src.drop bpp)

/-- The failure cases of `Encode`. -/
inductive EncodeError
  | zeroSize
  | tooManyPixels
  | badLength
deriving DecidableEq, Repr

/-- `Encode` of the source (`src/unnamed/part_001`): validates the pixel count
and the buffer length, writes the 14 header bytes, runs the pixel loop, and
appends the 8-byte end marker. -/
def Encode (src : List Nat) (width height : Nat) : Except EncodeError (List Nat) :=
  let numPixels := width * height
  if numPixels = 0 then .error .zeroSize
  else if qoiPixelsMax ≤ numPixels then .error .tooManyPixels
  else
    let bytesPerPixel := src.length / numPixels
    if width * height * bytesPerPixel ≠ src.length ∨ (bytesPerPixel ≠ 3 ∧ bytesPerPixel ≠ 4) then
      .error .badLength
    else
      .ok (headerBytes width height bytesPerPixel
            ++ encodeLoop (pixelsOfBytes bytesPerPixel numPixels src) initialCache initPx 0
            ++ qoiEnd)

/-- The opacity scan of `isOpaqueImage` (src/util.go): every pixel's alpha
equals the fully-opaque value.  (The `Opaque()` capability shortcut of the
external image abstraction reports the same fact when present.) -/
def isOpaqueImage (pixels : List Pixel) : Bool := pixels.all fun p => p.a == 255

/-- The `image.Image`-based `Encode` of the repository (the channel-count
policy): pick 3 bytes per pixel when the image is fully opaque, else 4, then
write the header and run the same pixel loop over the image's NRGBA pixels. -/
def EncodeImage (pixels : List Pixel) (width height : Nat) : Except EncodeError (List Nat) :=
  let numPixels := width * height
  if numPixels = 0 then .error .zeroSize
  else if qoiPixelsMax ≤ numPixels then .error .tooManyPixels
  else
    let bytesPerPixel := if isOpaqueImage pixels then 3 else 4
    .ok (headerBytes width height bytesPerPixel ++ encodeLoop pixels initialCache initPx 0
          ++ qoiEnd)

/-- `Image` of the repository (src/image.go), with `Pix` as a byte list. -/
structure QImage where
  Pix : List Nat
  Width : Nat
  Height : Nat
  Channels : Nat
  Colorspace : Nat
deriving DecidableEq, Repr

/-- `DecodeIntoBuffer` of the repository: decode the header, return
`(nil, nil)` on a zero pixel count, fail when the destination cannot hold the
image, otherwise decode into the prefix sub-view `dest[:numPixels*bpp]`.  The
image's `Pix` is that sub-view after the loop ran: the written bytes followed
by the untouched remainder of the window. -/
def DecodeIntoBuffer (stream : List Nat) (dest : List Nat) :
    Option QImage × Option DecodeError :=
  match DecodeHeader stream with
  | .error e => (none, some (.header e))
  | .ok h =>
    let numPixels := h.width * h.height % 2 ^ 32
    if numPixels = 0 then (none, none)
    else
      let bytesPerPixel := h.channels
      if dest.length < numPixels * bytesPerPixel then (none, some .capacity)
      else
        let r := decodeLoop numPixels (stream.drop 14) initialCache initPx 0
        (some ⟨bytesOfPixels bytesPerPixel r.1
                ++ (dest.take (numPixels * bytesPerPixel)).drop (r.1.length * bytesPerPixel),
              h.width, h.height, bytesPerPixel, h.colorspace⟩,
          r.2.2.map .body)

/-- Variant of `decodeLoop` that performs the cache write on every iteration,
run-consuming iterations included; only the `0 < run` branch differs from
`decodeLoop`.  This is the loop the spec describes ("update the cache
unconditionally, even if the value does not change"). -/
def decodeLoopW : Nat → List Nat → List Pixel → Pixel → Nat →
    List Pixel × List Nat × Option DecErr
  | 0, bytes, _, _, _ => ([], bytes, none)
  | n + 1, bytes, cache, px, run =>
    if 0 < run then
      let r := decodeLoopW n bytes (cache.set (posOf px) px) px (run - 1)
      (px :: r.1, r.2.1, r.2.2)
    else
      match bytes with
      | [] => ([], [], some .eofTag)
      | b1 :: bs =>
        if b1 = 254 then
          match bs with
          | rB :: gB :: bB :: bs2 =>
            let q : Pixel := ⟨rB, gB, bB, px.a⟩
            let r := decodeLoopW n bs2 (cache.set (posOf q) q) q 0
            (q :: r.1, r.2.1, r.2.2)
          | _ => ([], [], some .eofRGB)
        else if b1 = 255 then
          match bs with
          | rB :: gB :: bB :: aB :: bs2 =>
            let q : Pixel := ⟨rB, gB, bB, aB⟩
            let r := decodeLoopW n bs2 (cache.set (posOf q) q) q 0
            (q :: r.1, r.2.1, r.2.2)
          | _ => ([], [], some .eofRGBA)
        else if b1 / 64 = 0 then
          let q := cache.getD b1 zeroPx
          let r := decodeLoopW n bs (cache.set (posOf q) q) q 0
          (q :: r.1, r.2.1, r.2.2)
        else if b1 / 64 = 1 then
          let q : Pixel := ⟨(px.r + (b1 / 16 % 4 + 254) % 256) % 256,
                            (px.g + (b1 / 4 % 4 + 254) % 256) % 256,
                            (px.b + (b1 % 4 + 254) % 256) % 256, px.a⟩
          let r := decodeLoopW n bs (cache.set (posOf q) q) q 0
          (q :: r.1, r.2.1, r.2.2)
        else if b1 / 64 = 2 then
          match bs with
          | b2 :: bs2 =>
            let vg := (b1 % 64 + 224) % 256
            let q : Pixel := ⟨(px.r + ((vg + 248) % 256 + b2 / 16 % 16) % 256) % 256,
                              (px.g + vg) % 256,
                              (px.b + ((vg + 248) % 256 + b2 % 16) % 256) % 256, px.a⟩
            let r := decodeLoopW n bs2 (cache.set (posOf q) q) q 0
            (q :: r.1, r.2.1, r.2.2)
          | [] => ([], [], some .eofLuma)
        else
          let r := decodeLoopW n bs (cache.set (posOf px) px) px (b1 % 64)
          (px :: r.1, r.2.1, r.2.2)

/-- The number of cache-write statements `decodeLoop` executes: it mirrors
`decodeLoop` case by case, counting 1 for every iteration that reads a chunk
(the source's `index[...] = px` assignment sits in that branch) and 0 for an
iteration consumed from a pending run. -/
def decodeLoopWrites : Nat → List Nat → List Pixel → Pixel → Nat → Nat
  | 0, _, _, _, _ => 0
  | n + 1, bytes, cache, px, run =>
    if 0 < run then decodeLoopWrites n bytes cache px (run - 1)
    else
      match bytes with
      | [] => 0
      | b1 :: bs =>
        if b1 = 254 then
          match bs with
          | rB :: gB :: bB :: bs2 =>
            let q : Pixel := ⟨rB, gB, bB, px.a⟩
            1 + decodeLoopWrites n bs2 (cache.set (posOf q) q) q 0
          | _ => 0
        else if b1 = 255 then
          match bs with
          | rB :: gB :: bB :: aB :: bs2 =>
            let q : Pixel := ⟨rB, gB, bB, aB⟩
            1 + decodeLoopWrites n bs2 (cache.set (posOf q) q) q 0
          | _ => 0
        else if b1 / 64 = 0 then
          let q := cache.getD b1 zeroPx
          1 + decodeLoopWrites n bs (cache.set (posOf q) q) q 0
        else if b1 / 64 = 1 then
          let q : Pixel := ⟨(px.r + (b1 / 16 % 4 + 254) % 256) % 256,
                            (px.g + (b1 / 4 % 4 + 254) % 256) % 256,
                            (px.b + (b1 % 4 + 254) % 256) % 256, px.a⟩
          1 + decodeLoopWrites n bs (cache.set (posOf q) q) q 0
        else if b1 / 64 = 2 then
          match bs with
          | b2 :: bs2 =>
            let vg := (b1 % 64 + 224) % 256
            let q : Pixel := ⟨(px.r + ((vg + 248) % 256 + b2 / 16 % 16) % 256) % 256,
                              (px.g + vg) % 256,
                              (px.b + ((vg + 248) % 256 + b2 % 16) % 256) % 256, px.a⟩
            1 + decodeLoopWrites n bs2 (cache.set (posOf q) q) q 0
          | [] => 0
        else
          1 + decodeLoopWrites n bs (cache.set (posOf px) px) px (b1 % 64)

/-- The run-counter values `run - 1` recorded at each RUN-chunk emission of
`encodeLoop`, in order; it mirrors `encodeLoop`'s two
`out.WriteByte(qoi_RUN | byte(run-1))` sites. -/
def encRunValues : List Pixel → List Pixel → Pixel → Nat → List Nat
  | [], _, _, _ => []
  | px :: rest, cache, px_prev, run =>
    if px = px_prev then
      if run + 1 = 62 ∨ rest = [] then
        run :: encRunValues rest cache px_prev 0
      else
        encRunValues rest cache px_prev (run + 1)
    else
      (if 0 < run then [run - 1] else [])
        ++ (if cache.getD (posOf px) zeroPx = px then
              encRunValues rest cache px 0
            else
              encRunValues rest (cache.set (posOf px) px) px 0)

/-! ### List helpers -/

theorem getD_set_self (l : List Pixel) (i : Nat) (v d : Pixel) (h : i < l.length) :
    (l.set i v).getD i d = v := by
  simp [List.getD_eq_getElem?_getD, List.getElem?_set, h]

theorem getD_set_ne (l : List Pixel) (i j : Nat) (v d : Pixel) (h : i ≠ j) :
    (l.set i v).getD j d = l.getD j d := by
  simp [List.getD_eq_getElem?_getD, List.getElem?_set, h]

theorem set_same (l : List Pixel) (i : Nat) (v d : Pixel) (hi : i < l.length)
    (h : l.getD i d = v) : l.set i v = l := by
  apply List.ext_getElem?
  intro j
  rw [List.getElem?_set]
  by_cases hij : i = j
  · subst hij
    simp only [hi, if_pos rfl, if_pos trivial]
    rw [List.getD_eq_getElem?_getD] at h
    rw [List.getElem?_eq_getElem hi] at h ⊢
    simpa using h.symm
  · simp [hij]

theorem getD_lt_of_forall (l : List Nat) (h : ∀ b ∈ l, b < 256) (i d : Nat) (hd : d < 256) :
    l.getD i d < 256 := by
  rcases Nat.lt_or_ge i l.length with hi | hi
  · rw [List.getD_eq_getElem?_getD, List.getElem?_eq_getElem hi]
    exact h _ (List.getElem_mem hi)
  · rw [List.getD_eq_default _ _ hi]; exact hd

theorem rep_shift (n : Nat) (a : Pixel) (l : List Pixel) :
    a :: (List.replicate n a ++ l) = List.replicate n a ++ a :: l := by
  induction n with
  | zero => rfl
  | succ m ih => simp only [List.replicate_succ, List.cons_append, ih]

theorem posOf_lt (p : Pixel) : posOf p < 64 := Nat.mod_lt _ (by decide)

theorem initialCache_length : initialCache.length = 64 := by decide

theorem initialCache_valid : ∀ q ∈ initialCache, q.valid := by decide

theorem valid_of_mem_set {l : List Pixel} {i : Nat} {v : Pixel}
    (hl : ∀ q ∈ l, q.valid) (hv : v.valid) : ∀ q ∈ l.set i v, q.valid := by
  intro q hq
  rcases List.mem_or_eq_of_mem_set hq with h | h
  · exact hl q h
  · exact h ▸ hv

/-! ### Byte-arithmetic helpers for DIFF and LUMA -/

theorem toInt8_bounds (x : Int) : -128 ≤ toInt8 x ∧ toInt8 x < 128 := by
  unfold toInt8; omega

theorem diff_unpack (x y z : Nat) (hx : x ≤ 3) (hy : y ≤ 3) (hz : z ≤ 3) :
    let b1 := 64 + (16 * x + 4 * y + z)
    b1 ≠ 254 ∧ b1 ≠ 255 ∧ b1 / 64 = 1 ∧ b1 / 16 % 4 = x ∧ b1 / 4 % 4 = y ∧ b1 % 4 = z := by
  intro b1
  unfold_let b1
  omega

theorem diff_component (a b x : Nat) (ha : a < 256) (hb : b < 256)
    (hx : (x : Int) = toInt8 ((a : Int) - b) + 2) :
    (b + (x + 254) % 256) % 256 = a := by
  unfold toInt8 at hx; omega

theorem luma_unpack (t u w : Nat) (ht : t ≤ 63) (hu : u ≤ 15) (hw : w ≤ 15) :
    let b1 := 128 + t
    let b2 := 16 * u + w
    b1 ≠ 254 ∧ b1 ≠ 255 ∧ b1 / 64 = 2 ∧ b1 % 64 = t ∧ b2 / 16 % 16 = u ∧ b2 % 16 = w := by
  intro b1 b2
  unfold_let b1 b2
  omega

theorem luma_green (g0 g1 t : Nat) (h0 : g0 < 256) (h1 : g1 < 256)
    (ht : (t : Int) = toInt8 ((g1 : Int) - g0) + 32) :
    (g0 + (t + 224) % 256) % 256 = g1 := by
  unfold toInt8 at ht; omega

theorem luma_side (a b g0 g1 t u : Nat) (ha : a < 256) (hb : b < 256)
    (ht : (t : Int) = toInt8 ((g1 : Int) - g0) + 32)
    (hu : (u : Int) = toInt8 (toInt8 ((a : Int) - b) - toInt8 ((g1 : Int) - g0)) + 8) :
    (b + (((t + 224) % 256 + 248) % 256 + u) % 256) % 256 = a := by
  unfold toInt8 at ht hu; omega

/-! ### Step lemmas for the decode loop -/

/-- The common continuation of every chunk-reading iteration of `decodeLoop`:
emit the freshly computed pixel `q`, overwrite its cache slot, continue. -/
def chunkStep (q : Pixel) (n : Nat) (bs : List Nat) (cache : List Pixel) :
    List Pixel × List Nat × Option DecErr :=
  (q :: (decodeLoop n bs (cache.set (posOf q) q) q 0).1,
   (decodeLoop n bs (cache.set (posOf q) q) q 0).2.1,
   (decodeLoop n bs (cache.set (posOf q) q) q 0).2.2)

theorem decodeLoop_zero (bytes : List Nat) (cache : List Pixel) (px : Pixel) (run : Nat) :
    decodeLoop 0 bytes cache px run = ([], bytes, none) := rfl

theorem decodeLoop_consume (r : Nat) : ∀ (n : Nat) (bytes : List Nat) (cache : List Pixel)
    (px : Pixel), decodeLoop (r + n) bytes cache px r
      = (List.replicate r px ++ (decodeLoop n bytes cache px 0).1,
         (decodeLoop n bytes cache px 0).2.1, (decodeLoop n bytes cache px 0).2.2) := by
  induction r with
  | zero => intro n bytes cache px; simp
  | succ m ih =>
    intro n bytes cache px
    have hc : m + 1 + n = (m + n) + 1 := by omega
    rw [hc]
    simp only [decodeLoop, if_pos (Nat.succ_pos m), Nat.add_sub_cancel, ih n bytes cache px]
    simp [List.replicate_succ]

theorem decodeLoop_eofTag (n : Nat) (cache : List Pixel) (px : Pixel) :
    decodeLoop (n + 1) [] cache px 0 = ([], [], some .eofTag) := by
  simp [decodeLoop]

theorem decodeLoop_rgb (n rB gB bB : Nat) (bs : List Nat) (cache : List Pixel) (px : Pixel) :
    decodeLoop (n + 1) (254 :: rB :: gB :: bB :: bs) cache px 0
      = chunkStep ⟨rB, gB, bB, px.a⟩ n bs cache := by
  simp [decodeLoop, chunkStep]

theorem decodeLoop_rgba (n rB gB bB aB : Nat) (bs : List Nat) (cache : List Pixel) (px : Pixel) :
    decodeLoop (n + 1) (255 :: rB :: gB :: bB :: aB :: bs) cache px 0
      = chunkStep ⟨rB, gB, bB, aB⟩ n bs cache := by
  simp [decodeLoop, chunkStep]

theorem decodeLoop_cacheHit (n b1 : Nat) (bs : List Nat) (cache : List Pixel) (px : Pixel)
    (h : b1 < 64) :
    decodeLoop (n + 1) (b1 :: bs) cache px 0
      = chunkStep (cache.getD b1 zeroPx) n bs cache := by
  have h254 : b1 ≠ 254 := by omega
  have h255 : b1 ≠ 255 := by omega
  have hdiv : b1 / 64 = 0 := by omega
  simp [decodeLoop, chunkStep, h254, h255, hdiv]

theorem decodeLoop_diff (n b1 : Nat) (bs : List Nat) (cache : List Pixel) (px : Pixel)
    (h64 : 64 ≤ b1) (h128 : b1 < 128) :
    decodeLoop (n + 1) (b1 :: bs) cache px 0
      = chunkStep ⟨(px.r + (b1 / 16 % 4 + 254) % 256) % 256,
                   (px.g + (b1 / 4 % 4 + 254) % 256) % 256,
                   (px.b + (b1 % 4 + 254) % 256) % 256, px.a⟩ n bs cache := by
  have h254 : b1 ≠ 254 := by omega
  have h255 : b1 ≠ 255 := by omega
  have hdiv0 : ¬ b1 / 64 = 0 := by omega
  have hdiv1 : b1 / 64 = 1 := by omega
  simp [decodeLoop, chunkStep, h254, h255, hdiv0, hdiv1]

theorem decodeLoop_luma (n b1 b2 : Nat) (bs : List Nat) (cache : List Pixel) (px : Pixel)
    (h128 : 128 ≤ b1) (h192 : b1 < 192) :
    decodeLoop (n + 1) (b1 :: b2 :: bs) cache px 0
      = chunkStep ⟨(px.r + (((b1 % 64 + 224) % 256 + 248) % 256 + b2 / 16 % 16) % 256) % 256,
                   (px.g + (b1 % 64 + 224) % 256) % 256,
                   (px.b + (((b1 % 64 + 224) % 256 + 248) % 256 + b2 % 16) % 256) % 256, px.a⟩
          n bs cache := by
  have h254 : b1 ≠ 254 := by omega
  have h255 : b1 ≠ 255 := by omega
  have hdiv0 : ¬ b1 / 64 = 0 := by omega
  have hdiv1 : ¬ b1 / 64 = 1 := by omega
  have hdiv2 : b1 / 64 = 2 := by omega
  simp [decodeLoop, chunkStep, h254, h255, hdiv0, hdiv1, hdiv2]

theorem decodeLoop_runTag (n b1 : Nat) (bs : List Nat) (cache : List Pixel) (px : Pixel)
    (h192 : 192 ≤ b1) (h253 : b1 ≤ 253) :
    decodeLoop (n + 1) (b1 :: bs) cache px 0
      = (px :: (decodeLoop n bs (cache.set (posOf px) px) px (b1 % 64)).1,
         (decodeLoop n bs (cache.set (posOf px) px) px (b1 % 64)).2.1,
         (decodeLoop n bs (cache.set (posOf px) px) px (b1 % 64)).2.2) := by
  have h254 : b1 ≠ 254 := by omega
  have h255 : b1 ≠ 255 := by omega
  have hdiv0 : ¬ b1 / 64 = 0 := by omega
  have hdiv1 : ¬ b1 / 64 = 1 := by omega
  have hdiv2 : ¬ b1 / 64 = 2 := by omega
  simp [decodeLoop, h254, h255, hdiv0, hdiv1, hdiv2]

/-! ### The encoder/decoder cache correspondence

During decoding, RUN chunks overwrite the cache slot of the current pixel,
which the encoder never does while counting a run.  The only divergence this
can create is at slot `posOf initPx = 53`, when a stream starts with a run of
the implicit initial pixel and the encoder's slot 53 still holds the zero
pixel; the encoder can never emit an INDEX chunk for that slot while it holds
the zero pixel (whose own slot is 0), so decoding is unaffected. -/

theorem posOf_initPx : posOf initPx = 53 := by decide

theorem posOf_zeroPx : posOf zeroPx = 0 := by decide

theorem initPx_valid : initPx.valid := by decide

/-- Relation between the encoder's cache and the decoder's cache at matching
points of the two loops. -/
def cacheOK (cE cD : List Pixel) : Prop :=
  cD = cE ∨ (cE.getD 53 zeroPx = zeroPx ∧ cD = cE.set 53 initPx)

/-- The encoder's cache holds the current previous pixel at its own slot —
unless that pixel is still the initial pixel and slot 53 was never stored. -/
def prevOK (cE : List Pixel) (px : Pixel) : Prop :=
  cE.getD (posOf px) zeroPx = px ∨ (px = initPx ∧ cE.getD 53 zeroPx = zeroPx)

theorem cacheOK_length {cE cD : List Pixel} (h : cacheOK cE cD) : cD.length = cE.length := by
  rcases h with h | ⟨-, h⟩ <;> simp [h]

theorem cacheOK_valid {cE cD : List Pixel} (h : cacheOK cE cD)
    (hv : ∀ q ∈ cE, q.valid) : ∀ q ∈ cD, q.valid := by
  rcases h with h | ⟨-, h⟩
  · exact h ▸ hv
  · exact h ▸ valid_of_mem_set hv initPx_valid

/-- A self-consistent encoder slot is equal on the decoder side. -/
theorem cacheOK_getD {cE cD : List Pixel} (h : cacheOK cE cD) (hlen : cE.length = 64)
    (q : Pixel) (hq : cE.getD (posOf q) zeroPx = q) :
    cD.getD (posOf q) zeroPx = q := by
  rcases h with h | ⟨h0, h⟩
  · exact h ▸ hq
  · subst h
    by_cases h53 : posOf q = 53
    · rw [h53] at hq
      rw [h0] at hq
      rw [← hq] at h53
      rw [posOf_zeroPx] at h53
      exact absurd h53 (by decide)
    · rw [getD_set_ne _ _ _ _ _ (fun he => h53 he.symm)]
      exact hq

/-- The decoder-only cache write of a RUN or INDEX chunk preserves the
correspondence, provided the written pixel is either already stored on the
encoder side or is the never-stored initial pixel. -/
theorem cacheOK_dwrite {cE cD : List Pixel} (h : cacheOK cE cD) (hlen : cE.length = 64)
    {q : Pixel} (hq : cE.getD (posOf q) zeroPx = q ∨ (q = initPx ∧ cE.getD 53 zeroPx = zeroPx)) :
    cacheOK cE (cD.set (posOf q) q) := by
  have hlenD : cD.length = 64 := (cacheOK_length h).trans hlen
  rcases hq with hq | ⟨hq, h0⟩
  · have hDq : cD.getD (posOf q) zeroPx = q := cacheOK_getD h hlen q hq
    rw [set_same cD (posOf q) q zeroPx (hlenD ▸ posOf_lt q) hDq]
    exact h
  · subst hq
    rw [posOf_initPx]
    rcases h with h | ⟨h0', h⟩
    · right
      exact ⟨h0, by rw [h]⟩
    · right
      refine ⟨h0, ?_⟩
      rw [h, List.set_set]

/-- A store performed by both sides preserves the correspondence. -/
theorem cacheOK_store {cE cD : List Pixel} (h : cacheOK cE cD) (hlen : cE.length = 64)
    (q : Pixel) : cacheOK (cE.set (posOf q) q) (cD.set (posOf q) q) := by
  rcases h with h | ⟨h0, h⟩
  · left; rw [h]
  · subst h
    by_cases h53 : posOf q = 53
    · left
      rw [h53, List.set_set]
    · right
      constructor
      · rw [getD_set_ne _ _ _ _ _ h53]
        exact h0
      · rw [List.set_comm _ _ _ h53]

/-- A chunk emitted by `encChunkBytes` decodes back to exactly the pixel it
encodes, from the matching decoder state. -/
theorem chunk_decodes (p px : Pixel) (hp : p.valid) (hpx : px.valid) (n : Nat)
    (bs : List Nat) (cache : List Pixel) :
    decodeLoop (n + 1) (encChunkBytes p px ++ bs) cache px 0 = chunkStep p n bs cache := by
  obtain ⟨hpr, hpg, hpb, hpa⟩ := hp
  obtain ⟨hxr, hxg, hxb, hxa⟩ := hpx
  by_cases ha : p.a = px.a
  · simp only [encChunkBytes, if_pos ha]
    set vr := toInt8 ((p.r : Int) - (px.r : Int)) with hvr
    set vg := toInt8 ((p.g : Int) - (px.g : Int)) with hvg
    set vb := toInt8 ((p.b : Int) - (px.b : Int)) with hvb
    have hvr8 : -128 ≤ vr ∧ vr < 128 := hvr ▸ toInt8_bounds _
    have hvg8 : -128 ≤ vg ∧ vg < 128 := hvg ▸ toInt8_bounds _
    have hvb8 : -128 ≤ vb ∧ vb < 128 := hvb ▸ toInt8_bounds _
    by_cases hdiff : -3 < vr ∧ vr < 2 ∧ -3 < vg ∧ vg < 2 ∧ -3 < vb ∧ vb < 2
    · rw [if_pos hdiff]
      obtain ⟨d1, d2, d3, d4, d5, d6⟩ := hdiff
      have hx : (vr + 2).toNat ≤ 3 := by omega
      have hy : (vg + 2).toNat ≤ 3 := by omega
      have hz : (vb + 2).toNat ≤ 3 := by omega
      obtain ⟨-, -, -, e1, e2, e3⟩ := diff_unpack _ _ _ hx hy hz
      rw [List.cons_append, List.nil_append,
        decodeLoop_diff n _ _ cache px (by omega) (by omega), e1, e2, e3]
      have cr : (px.r + ((vr + 2).toNat + 254) % 256) % 256 = p.r :=
        diff_component p.r px.r _ hpr hxr (by rw [Int.toNat_of_nonneg (by omega), hvr])
      have cg : (px.g + ((vg + 2).toNat + 254) % 256) % 256 = p.g :=
        diff_component p.g px.g _ hpg hxg (by rw [Int.toNat_of_nonneg (by omega), hvg])
      have cb : (px.b + ((vb + 2).toNat + 254) % 256) % 256 = p.b :=
        diff_component p.b px.b _ hpb hxb (by rw [Int.toNat_of_nonneg (by omega), hvb])
      rw [cr, cg, cb, ← ha]
    · rw [if_neg hdiff]
      set vg_r := toInt8 (vr - vg) with hvgr
      set vg_b := toInt8 (vb - vg) with hvgb
      have hvgr8 : -128 ≤ vg_r ∧ vg_r < 128 := hvgr ▸ toInt8_bounds _
      have hvgb8 : -128 ≤ vg_b ∧ vg_b < 128 := hvgb ▸ toInt8_bounds _
      by_cases hluma : -9 < vg_r ∧ vg_r < 8 ∧ -33 < vg ∧ vg < 32 ∧ -9 < vg_b ∧ vg_b < 8
      · rw [if_pos hluma]
        obtain ⟨l1, l2, l3, l4, l5, l6⟩ := hluma
        have ht : (vg + 32).toNat ≤ 63 := by omega
        have hu : (vg_r + 8).toNat ≤ 15 := by omega
        have hw : (vg_b + 8).toNat ≤ 15 := by omega
        obtain ⟨-, -, -, e1, e2, e3⟩ := luma_unpack _ _ _ ht hu hw
        rw [List.cons_append, List.cons_append, List.nil_append,
          decodeLoop_luma n _ _ _ cache px (by omega) (by omega), e1, e2, e3]
        have castT : (((vg + 32).toNat : Nat) : Int) = toInt8 ((p.g : Int) - px.g) + 32 := by
          rw [Int.toNat_of_nonneg (by omega), hvg]
        have castU : (((vg_r + 8).toNat : Nat) : Int)
            = toInt8 (toInt8 ((p.r : Int) - px.r) - toInt8 ((p.g : Int) - px.g)) + 8 := by
          rw [Int.toNat_of_nonneg (by omega), hvgr, hvr, hvg]
        have castW : (((vg_b + 8).toNat : Nat) : Int)
            = toInt8 (toInt8 ((p.b : Int) - px.b) - toInt8 ((p.g : Int) - px.g)) + 8 := by
          rw [Int.toNat_of_nonneg (by omega), hvgb, hvb, hvg]
        have cr : (px.r + ((((vg + 32).toNat + 224) % 256 + 248) % 256
            + (vg_r + 8).toNat) % 256) % 256 = p.r :=
          luma_side p.r px.r px.g p.g (vg + 32).toNat (vg_r + 8).toNat hpr hxr castT castU
        have cg : (px.g + ((vg + 32).toNat + 224) % 256) % 256 = p.g :=
          luma_green px.g p.g _ hxg hpg castT
        have cb : (px.b + ((((vg + 32).toNat + 224) % 256 + 248) % 256
            + (vg_b + 8).toNat) % 256) % 256 = p.b :=
          luma_side p.b px.b px.g p.g (vg + 32).toNat (vg_b + 8).toNat hpb hxb castT castW
        rw [cr, cg, cb, ← ha]
      · rw [if_neg hluma, List.cons_append, List.cons_append, List.cons_append,
          List.cons_append, List.nil_append, decodeLoop_rgb, ← ha]
  · simp only [encChunkBytes, if_neg ha, List.cons_append, List.nil_append]
    rw [decodeLoop_rgba]

/-! ### The main encoder/decoder simulation -/

/-- Decoding the bytes the encoder emits from any reachable joint state
produces exactly the encoded pixels (preceded by the pixels of the pending
run), consumes exactly those bytes, and succeeds. -/
theorem encodeLoop_decodes : ∀ (pixels cE cD : List Pixel) (px : Pixel) (run : Nat)
    (extra : List Nat), cE.length = 64 → (∀ q ∈ cE, q.valid) → px.valid →
    (∀ q ∈ pixels, q.valid) → cacheOK cE cD → prevOK cE px → run ≤ 61 →
    (pixels = [] → run = 0) →
    decodeLoop (run + pixels.length) (encodeLoop pixels cE px run ++ extra) cD px 0
      = (List.replicate run px ++ pixels, extra, none) := by
  intro pixels
  induction pixels with
  | nil =>
    intro cE cD px run extra _ _ _ _ _ _ _ hrun0
    rw [hrun0 rfl]
    simp [encodeLoop, decodeLoop_zero]
  | cons p rest ih =>
    intro cE cD px run extra hlen hEv hpxv hpv hOK hprev hrun hne
    have hpval : p.valid := hpv p (List.mem_cons_self p rest)
    have hrestv : ∀ q ∈ rest, q.valid := fun q hq => hpv q (List.mem_cons_of_mem p hq)
    by_cases hpp : p = px
    · subst hpp
      by_cases hfl : run + 1 = 62 ∨ rest = []
      · simp only [encodeLoop, if_true]
        rw [if_pos hfl, List.cons_append]
        have hcount : run + (p :: rest).length = (run + rest.length) + 1 := by
          simp only [List.length_cons]; omega
        rw [hcount]
        rw [decodeLoop_runTag _ _ _ cD p (by omega) (by omega)]
        have hmod : (192 + run) % 64 = run := by omega
        rw [hmod]
        rw [decodeLoop_consume run rest.length _ _ p]
        have hOK2 : cacheOK cE (cD.set (posOf p) p) := cacheOK_dwrite hOK hlen hprev
        have hrec := ih cE (cD.set (posOf p) p) p 0 extra hlen hEv hpxv hrestv hOK2 hprev
          (by omega) (fun _ => rfl)
        rw [Nat.zero_add] at hrec
        rw [hrec]
        simp only [List.replicate, List.nil_append]
        rw [rep_shift]
      · simp only [encodeLoop, if_true]
        rw [if_neg hfl]
        push_neg at hfl
        have hcount : run + (p :: rest).length = (run + 1) + rest.length := by
          simp only [List.length_cons]; omega
        rw [hcount]
        rw [ih cE cD p (run + 1) extra hlen hEv hpxv hrestv hOK hprev (by omega)
          (fun he => absurd he hfl.2)]
        rw [List.replicate_succ, List.cons_append, rep_shift]
    · have hstep2 : ∀ cD2 : List Pixel, cacheOK cE cD2 →
          decodeLoop (rest.length + 1)
            ((if cE.getD (posOf p) zeroPx = p then
                posOf p :: encodeLoop rest cE p 0
              else
                encChunkBytes p px ++ encodeLoop rest (cE.set (posOf p) p) p 0) ++ extra)
            cD2 px 0
          = (p :: rest, extra, none) := by
        intro cD2 hOK2
        by_cases hhit : cE.getD (posOf p) zeroPx = p
        · rw [if_pos hhit, List.cons_append]
          rw [decodeLoop_cacheHit _ _ _ cD2 px (posOf_lt p)]
          have hq : cD2.getD (posOf p) zeroPx = p := cacheOK_getD hOK2 hlen p hhit
          rw [hq]
          unfold chunkStep
          have hOK3 : cacheOK cE (cD2.set (posOf p) p) :=
            cacheOK_dwrite hOK2 hlen (Or.inl hhit)
          have hrec := ih cE (cD2.set (posOf p) p) p 0 extra hlen hEv hpval hrestv hOK3
            (Or.inl hhit) (by omega) (fun _ => rfl)
          rw [Nat.zero_add] at hrec
          rw [hrec]
          simp
        · rw [if_neg hhit, List.append_assoc]
          rw [chunk_decodes p px hpval hpxv rest.length _ cD2]
          unfold chunkStep
          have hOK3 : cacheOK (cE.set (posOf p) p) (cD2.set (posOf p) p) :=
            cacheOK_store hOK2 hlen p
          have hlen3 : (cE.set (posOf p) p).length = 64 := by simp [hlen]
          have hEv3 : ∀ q ∈ cE.set (posOf p) p, q.valid := valid_of_mem_set hEv hpval
          have hprev3 : prevOK (cE.set (posOf p) p) p :=
            Or.inl (getD_set_self cE (posOf p) p zeroPx (hlen ▸ posOf_lt p))
          have hrec := ih (cE.set (posOf p) p) (cD2.set (posOf p) p) p 0 extra hlen3 hEv3
            hpval hrestv hOK3 hprev3 (by omega) (fun _ => rfl)
          rw [Nat.zero_add] at hrec
          rw [hrec]
          simp
      by_cases hrun0 : 0 < run
      · simp only [encodeLoop]
        rw [if_neg hpp, if_pos hrun0, List.append_assoc, List.singleton_append]
        have hcount : run + (p :: rest).length = ((run - 1) + (rest.length + 1)) + 1 := by
          simp only [List.length_cons]; omega
        rw [hcount]
        rw [decodeLoop_runTag _ _ _ cD px (by omega) (by omega)]
        have hmod : (192 + (run - 1)) % 64 = run - 1 := by omega
        rw [hmod]
        rw [decodeLoop_consume (run - 1) (rest.length + 1) _ _ px]
        have hOKw : cacheOK cE (cD.set (posOf px) px) := cacheOK_dwrite hOK hlen hprev
        rw [hstep2 _ hOKw]
        have hassemble : px :: (List.replicate (run - 1) px ++ (p :: rest))
            = List.replicate run px ++ (p :: rest) := by
          rw [← List.cons_append, ← List.replicate_succ]
          congr 2
          omega
        rw [hassemble]
      · have hrunz : run = 0 := by omega
        subst hrunz
        simp only [encodeLoop]
        rw [if_neg hpp, if_neg (by omega : ¬ (0 : Nat) < 0), List.nil_append]
        have hcount : 0 + (p :: rest).length = rest.length + 1 := by
          simp only [List.length_cons]; omega
        rw [hcount]
        rw [hstep2 cD hOK]
        simp

/-! ### Pixel/byte regrouping and the header round trip -/

theorem pixelsOfBytes_length (bpp : Nat) : ∀ (n : Nat) (src : List Nat),
    (pixelsOfBytes bpp n src).length = n := by
  intro n
  induction n with
  | zero => intro src; rfl
  | succ m ih => intro src; simp [pixelsOfBytes, ih]

theorem pixelsOfBytes_valid (bpp : Nat) : ∀ (n : Nat) (src : List Nat),
    (∀ b ∈ src, b < 256) → ∀ p ∈ pixelsOfBytes bpp n src, p.valid := by
  intro n
  induction n with
  | zero => intro src _ p hp; simp [pixelsOfBytes] at hp
  | succ m ih =>
    intro src hsrc p hp
    simp only [pixelsOfBytes, List.mem_cons] at hp
    rcases hp with hp | hp
    · subst hp
      refine ⟨getD_lt_of_forall src hsrc 0 0 (by omega),
        getD_lt_of_forall src hsrc 1 0 (by omega),
        getD_lt_of_forall src hsrc 2 0 (by omega), ?_⟩
      by_cases h4 : bpp = 4
      · simp only [if_pos h4]; exact getD_lt_of_forall src hsrc 3 0 (by omega)
      · simp only [if_neg h4]; omega
    · exact ih (src.drop bpp) (fun b hb => hsrc b (List.mem_of_mem_drop hb)) p hp

theorem bytesOfPixels_pixelsOfBytes (bpp : Nat) (hbpp : bpp = 3 ∨ bpp = 4) :
    ∀ (n : Nat) (src : List Nat), src.length = n * bpp →
    bytesOfPixels bpp (pixelsOfBytes bpp n src) = src := by
  intro n
  induction n with
  | zero =>
    intro src hsrc
    rw [Nat.zero_mul] at hsrc
    rw [List.eq_nil_of_length_eq_zero hsrc]
    rfl
  | succ m ih =>
    intro src hsrc
    rcases hbpp with h3 | h4
    · subst h3
      rcases src with - | ⟨a, src⟩
      · simp only [List.length_nil] at hsrc; omega
      rcases src with - | ⟨b, src⟩
      · simp only [List.length_cons, List.length_nil] at hsrc; omega
      rcases src with - | ⟨c, src⟩
      · simp only [List.length_cons, List.length_nil] at hsrc; omega
      have hr : src.length = m * 3 := by
        simp only [List.length_cons] at hsrc; omega
      simp only [pixelsOfBytes, bytesOfPixels, pixelBytes]
      norm_num
      exact ih src hr
    · subst h4
      rcases src with - | ⟨a, src⟩
      · simp only [List.length_nil] at hsrc; omega
      rcases src with - | ⟨b, src⟩
      · simp only [List.length_cons, List.length_nil] at hsrc; omega
      rcases src with - | ⟨c, src⟩
      · simp only [List.length_cons, List.length_nil] at hsrc; omega
      rcases src with - | ⟨d, src⟩
      · simp only [List.length_cons, List.length_nil] at hsrc; omega
      have hr : src.length = m * 4 := by
        simp only [List.length_cons] at hsrc; omega
      simp only [pixelsOfBytes, bytesOfPixels, pixelBytes]
      norm_num
      exact ih src hr

theorem headerBytes_length (w h c : Nat) : (headerBytes w h c).length = 14 := by
  simp [headerBytes, qoiMagicBytes, be32]

theorem headerBytes_drop (w h c : Nat) (rest : List Nat) :
    (headerBytes w h c ++ rest).drop 14 = rest := by
  rw [← headerBytes_length w h c, List.drop_left]

/-- Acceptance case of `DecodeHeader`, in terms of the byte reads. -/
theorem DecodeHeader_ok (s : List Nat) (hlen : 14 ≤ s.length)
    (hm : [s.getD 0 0, s.getD 1 0, s.getD 2 0, s.getD 3 0] = qoiMagicBytes)
    (hc : s.getD 12 0 = 3 ∨ s.getD 12 0 = 4)
    (hcs : s.getD 13 0 = 0 ∨ s.getD 13 0 = 1) :
    DecodeHeader s = .ok ⟨[s.getD 0 0, s.getD 1 0, s.getD 2 0, s.getD 3 0],
      rd32At s 4, rd32At s 8, s.getD 12 0, s.getD 13 0⟩ := by
  simp only [List.getD_eq_getElem?_getD] at hm hc hcs ⊢
  simp only [DecodeHeader, List.getD_eq_getElem?_getD]
  rw [if_neg (by omega), if_neg (by omega), if_neg (by omega), if_neg (by omega),
    if_neg (by omega), if_neg (by simp [hm]), if_neg (by omega),
    if_neg (by rcases hcs with h | h <;> simp [h])]

theorem headerBytes_parse (w h c : Nat) (hw : w < 2 ^ 32) (hh : h < 2 ^ 32)
    (hc : c = 3 ∨ c = 4) (rest : List Nat) :
    DecodeHeader (headerBytes w h c ++ rest) = .ok ⟨qoiMagicBytes, w, h, c, 0⟩ := by
  have hs : headerBytes w h c ++ rest
      = 113 :: 111 :: 105 :: 102
        :: (w / 2 ^ 24 % 256) :: (w / 2 ^ 16 % 256) :: (w / 2 ^ 8 % 256) :: (w % 256)
        :: (h / 2 ^ 24 % 256) :: (h / 2 ^ 16 % 256) :: (h / 2 ^ 8 % 256) :: (h % 256)
        :: c :: 0 :: rest := by
    simp [headerBytes, qoiMagicBytes, be32] <;> omega
  rw [hs]
  rw [DecodeHeader_ok _ (by simp) (by simp [qoiMagicBytes]) (by simpa using hc)
    (Or.inl (by simp))]
  simp only [rd32At, List.getD_cons_succ, List.getD_cons_zero, Except.ok.injEq,
    Header.mk.injEq, qoiMagicBytes]
  refine ⟨?_, ?_, ?_, ?_, ?_⟩ <;> first | trivial | omega

/-- Decoding a complete encoded stream with a destination of exactly the
image's size: the written bytes are the pixels' bytes. -/
theorem Decode_encoded (pixels : List Pixel) (w h bpp : Nat)
    (hw : 1 ≤ w) (hh : 1 ≤ h) (hlen : pixels.length = w * h)
    (hmax : w * h < qoiPixelsMax) (hv : ∀ p ∈ pixels, p.valid) (hbpp : bpp = 3 ∨ bpp = 4) :
    Decode (headerBytes w h bpp ++ (encodeLoop pixels initialCache initPx 0 ++ qoiEnd))
        (w * h * bpp)
      = ⟨w * h * bpp, w, h, bpp == 4, none, bytesOfPixels bpp pixels⟩ := by
  have hmax400 : w * h < 400000000 := hmax
  have hwh32 : w * h < 2 ^ 32 := by omega
  have hw32 : w < 2 ^ 32 := by
    have : w ≤ w * h := Nat.le_mul_of_pos_right w (by omega)
    omega
  have hh32 : h < 2 ^ 32 := by
    have : h ≤ w * h := Nat.le_mul_of_pos_left h (by omega)
    omega
  have hwhb32 : w * h * bpp < 2 ^ 32 := by
    rcases hbpp with h3 | h4
    · subst h3; omega
    · subst h4; omega
  simp only [Decode, headerBytes_parse w h bpp hw32 hh32 hbpp]
  rw [Nat.mod_eq_of_lt hwh32]
  rw [if_neg (by simp only [Nat.mul_eq_zero]; omega : ¬ w * h = 0)]
  rw [Nat.mod_eq_of_lt hwhb32]
  have hdiv : w * h * bpp / bpp = w * h := Nat.mul_div_cancel _ (by omega)
  rw [hdiv, if_neg (by omega : ¬ w * h < w * h)]
  rw [headerBytes_drop]
  have hsim := encodeLoop_decodes pixels initialCache initialCache initPx 0 qoiEnd
    initialCache_length initialCache_valid initPx_valid hv (Or.inl rfl)
    (Or.inr ⟨rfl, by decide⟩) (by omega) (fun _ => rfl)
  rw [Nat.zero_add] at hsim
  simp only [List.replicate_zero, List.nil_append] at hsim
  rw [hlen] at hsim
  rw [hsim]
  simp [hlen]

/-! ### Claim theorems -/

/-- C1: for every pixel buffer with width ≥ 1, height ≥ 1 and channels ∈
{3, 4} whose length equals `width*height*channels` (and whose pixel count the
encoder accepts), decoding the byte stream produced by `Encode` reproduces the
original buffer exactly, byte for byte, with the same width, height and
channel count, alpha included when channels = 4. -/
theorem C1_encode_decode_round_trip (src : List Nat) (width height channels : Nat)
    (hw : 1 ≤ width) (hh : 1 ≤ height) (hc : channels = 3 ∨ channels = 4)
    (hlen : src.length = width * height * channels) (hbytes : ∀ b ∈ src, b < 256)
    (hmax : width * height < qoiPixelsMax) :
    ∃ stream, Encode src width height = .ok stream
      ∧ Decode stream (width * height * channels)
        = ⟨width * height * channels, width, height, channels == 4, none, src⟩ := by
  have hwh0 : ¬ width * height = 0 := by simp only [Nat.mul_eq_zero]; omega
  have hbpp : src.length / (width * height) = channels := by
    rw [hlen]
    exact Nat.mul_div_cancel_left channels (by omega)
  have henc : Encode src width height
      = .ok (headerBytes width height channels
          ++ encodeLoop (pixelsOfBytes channels (width * height) src) initialCache initPx 0
          ++ qoiEnd) := by
    simp only [Encode]
    rw [if_neg hwh0, if_neg (by omega : ¬ qoiPixelsMax ≤ width * height), hbpp,
      if_neg (by rcases hc with h | h <;> simp [h, hlen])]
  refine ⟨_, henc, ?_⟩
  rw [List.append_assoc]
  have hd := Decode_encoded (pixelsOfBytes channels (width * height) src) width height
    channels hw hh (pixelsOfBytes_length channels (width * height) src) hmax
    (pixelsOfBytes_valid channels (width * height) src hbytes) hc
  rw [bytesOfPixels_pixelsOfBytes channels hc (width * height) src hlen] at hd
  exact hd

theorem C1_witness : ∃ stream, Encode [0, 0, 0, 255, 10, 20, 30, 40] 2 1 = .ok stream
    ∧ Decode stream (2 * 1 * 4)
      = ⟨2 * 1 * 4, 2, 1, 4 == 4, none, [0, 0, 0, 255, 10, 20, 30, 40]⟩ :=
  C1_encode_decode_round_trip [0, 0, 0, 255, 10, 20, 30, 40] 2 1 4 (by decide) (by decide)
    (by decide) (by decide) (by decide) (by decide)

/-- C3: encoding a source image in which every pixel is fully opaque always
produces a header whose channels field is 3, and decoding the result back
yields alpha-free pixel data (`includesAlpha = false`, three bytes per pixel),
fabricating no alpha beyond the implicit 255. -/
theorem C3_opaque_drops_alpha (pixels : List Pixel) (width height : Nat)
    (hw : 1 ≤ width) (hh : 1 ≤ height) (hlen : pixels.length = width * height)
    (hmax : width * height < qoiPixelsMax) (hv : ∀ p ∈ pixels, p.valid)
    (halpha : ∀ p ∈ pixels, p.a = 255) :
    ∃ stream, EncodeImage pixels width height = .ok stream
      ∧ stream.getD 12 0 = 3
      ∧ Decode stream (width * height * 3)
        = ⟨width * height * 3, width, height, false, none, bytesOfPixels 3 pixels⟩ := by
  have hwh0 : ¬ width * height = 0 := by simp only [Nat.mul_eq_zero]; omega
  have hop : isOpaqueImage pixels = true := by
    simp only [isOpaqueImage, List.all_eq_true, beq_iff_eq]
    exact halpha
  have henc : EncodeImage pixels width height
      = .ok (headerBytes width height 3 ++ encodeLoop pixels initialCache initPx 0
          ++ qoiEnd) := by
    simp only [EncodeImage]
    rw [if_neg hwh0, if_neg (by omega : ¬ qoiPixelsMax ≤ width * height), if_pos hop]
  refine ⟨_, henc, ?_, ?_⟩
  · have : headerBytes width height 3 ++ (encodeLoop pixels initialCache initPx 0 ++ qoiEnd)
        = 113 :: 111 :: 105 :: 102
          :: (width % 2 ^ 32 / 2 ^ 24 % 256) :: (width % 2 ^ 32 / 2 ^ 16 % 256)
          :: (width % 2 ^ 32 / 2 ^ 8 % 256) :: (width % 2 ^ 32 % 256)
          :: (height % 2 ^ 32 / 2 ^ 24 % 256) :: (height % 2 ^ 32 / 2 ^ 16 % 256)
          :: (height % 2 ^ 32 / 2 ^ 8 % 256) :: (height % 2 ^ 32 % 256)
          :: 3 :: 0 :: (encodeLoop pixels initialCache initPx 0 ++ qoiEnd) := by
      simp [headerBytes, qoiMagicBytes, be32]
    rw [List.append_assoc, this]
    rfl
  · rw [List.append_assoc]
    have hd := Decode_encoded pixels width height 3 hw hh hlen hmax hv (Or.inl rfl)
    simpa using hd

theorem C3_witness : ∃ stream, EncodeImage [⟨9, 8, 7, 255⟩, ⟨9, 8, 7, 255⟩] 1 2 = .ok stream
    ∧ stream.getD 12 0 = 3
    ∧ Decode stream (1 * 2 * 3)
      = ⟨1 * 2 * 3, 1, 2, false, none, bytesOfPixels 3 [⟨9, 8, 7, 255⟩, ⟨9, 8, 7, 255⟩]⟩ :=
  C3_opaque_drops_alpha [⟨9, 8, 7, 255⟩, ⟨9, 8, 7, 255⟩] 1 2 (by decide) (by decide)
    (by decide) (by decide) (by decide) (by decide)

/-- C9: the 1×1 fully opaque black image encodes to exactly the 23 bytes
`71 6F 69 66 | 00 00 00 01 | 00 00 00 01 | 03 | 00 | C0 | 00 00 00 00 00 00 00 01`
(header with width = height = 1, channels = 3, colorspace = 0, one RUN chunk
byte `0xC0`, the 8-byte end marker), both through the byte-buffer `Encode` and
through the image `EncodeImage`; decoding those 23 bytes reproduces the single
pixel exactly. -/
theorem C9_single_black_pixel :
    Encode [0, 0, 0] 1 1
        = .ok [113, 111, 105, 102, 0, 0, 0, 1, 0, 0, 0, 1, 3, 0, 192,
               0, 0, 0, 0, 0, 0, 0, 1]
    ∧ EncodeImage [initPx] 1 1
        = .ok [113, 111, 105, 102, 0, 0, 0, 1, 0, 0, 0, 1, 3, 0, 192,
               0, 0, 0, 0, 0, 0, 0, 1]
    ∧ Decode [113, 111, 105, 102, 0, 0, 0, 1, 0, 0, 0, 1, 3, 0, 192,
              0, 0, 0, 0, 0, 0, 0, 1] 3
        = ⟨3, 1, 1, false, none, [0, 0, 0]⟩ := by
  refine ⟨?_, ?_, ?_⟩ <;> rfl

/-! ### Truncation -/

/-- If a decode run succeeds consuming its whole input, every proper prefix of
that input makes it fail (the loop reaches a read with the stream exhausted). -/
theorem decodeLoop_truncated : ∀ (n : Nat) (bytes : List Nat) (cache : List Pixel)
    (px : Pixel) (run j : Nat),
    (decodeLoop n bytes cache px run).2.2 = none →
    (decodeLoop n bytes cache px run).2.1 = [] →
    j < bytes.length →
    ∃ e, (decodeLoop n (bytes.take j) cache px run).2.2 = some e := by
  intro n
  induction n with
  | zero =>
    intro bytes cache px run j _ h2 hj
    rw [decodeLoop_zero] at h2
    subst h2
    simp at hj
  | succ m ih =>
    intro bytes cache px run j h1 h2 hj
    by_cases hrun : 0 < run
    · simp only [decodeLoop, if_pos hrun] at h1 h2 ⊢
      exact ih bytes cache px (run - 1) j h1 h2 hj
    · replace hrun : run = 0 := by omega
      subst hrun
      rcases bytes with - | ⟨b1, bs⟩
      · simp at hj
      rcases j with - | j
      · exact ⟨.eofTag, by rw [List.take_zero, decodeLoop_eofTag]⟩
      rw [List.take_succ_cons]
      simp only [List.length_cons] at hj
      by_cases h254 : b1 = 254
      · subst h254
        rcases bs with - | ⟨rB, bs⟩
        · exact absurd h1 (by simp [decodeLoop])
        rcases bs with - | ⟨gB, bs⟩
        · exact absurd h1 (by simp [decodeLoop])
        rcases bs with - | ⟨bB, bs⟩
        · exact absurd h1 (by simp [decodeLoop])
        rw [decodeLoop_rgb] at h1 h2
        unfold chunkStep at h1 h2
        rcases j with - | j
        · exact ⟨.eofRGB, by simp [decodeLoop]⟩
        rcases j with - | j
        · exact ⟨.eofRGB, by simp [decodeLoop]⟩
        rcases j with - | j
        · exact ⟨.eofRGB, by simp [decodeLoop]⟩
        rw [List.take_succ_cons, List.take_succ_cons, List.take_succ_cons, decodeLoop_rgb]
        unfold chunkStep
        refine ih _ _ _ _ j h1 h2 ?_
        simp only [List.length_cons] at hj
        omega
      · by_cases h255 : b1 = 255
        · subst h255
          rcases bs with - | ⟨rB, bs⟩
          · exact absurd h1 (by simp [decodeLoop])
          rcases bs with - | ⟨gB, bs⟩
          · exact absurd h1 (by simp [decodeLoop])
          rcases bs with - | ⟨bB, bs⟩
          · exact absurd h1 (by simp [decodeLoop])
          rcases bs with - | ⟨aB, bs⟩
          · exact absurd h1 (by simp [decodeLoop])
          rw [decodeLoop_rgba] at h1 h2
          unfold chunkStep at h1 h2
          rcases j with - | j
          · exact ⟨.eofRGBA, by simp [decodeLoop]⟩
          rcases j with - | j
          · exact ⟨.eofRGBA, by simp [decodeLoop]⟩
          rcases j with - | j
          · exact ⟨.eofRGBA, by simp [decodeLoop]⟩
          rcases j with - | j
          · exact ⟨.eofRGBA, by simp [decodeLoop]⟩
          rw [List.take_succ_cons, List.take_succ_cons, List.take_succ_cons,
            List.take_succ_cons, decodeLoop_rgba]
          unfold chunkStep
          refine ih _ _ _ _ j h1 h2 ?_
          simp only [List.length_cons] at hj
          omega
        · by_cases h0 : b1 / 64 = 0
          · have hb1 : b1 < 64 := by omega
            rw [decodeLoop_cacheHit _ _ _ _ _ hb1] at h1 h2
            rw [decodeLoop_cacheHit _ _ _ _ _ hb1]
            unfold chunkStep at h1 h2 ⊢
            exact ih _ _ _ _ j h1 h2 (by omega)
          · by_cases hd1 : b1 / 64 = 1
            · have hb64 : 64 ≤ b1 := by omega
              have hb128 : b1 < 128 := by omega
              rw [decodeLoop_diff _ _ _ _ _ hb64 hb128] at h1 h2
              rw [decodeLoop_diff _ _ _ _ _ hb64 hb128]
              unfold chunkStep at h1 h2 ⊢
              exact ih _ _ _ _ j h1 h2 (by omega)
            · by_cases hd2 : b1 / 64 = 2
              · have hb128 : 128 ≤ b1 := by omega
                have hb192 : b1 < 192 := by omega
                rcases bs with - | ⟨b2, bs⟩
                · exact absurd h1 (by
                    simp only [decodeLoop, if_neg (by omega : ¬ (0 : Nat) < 0),
                      if_neg h254, if_neg h255, if_neg h0, if_neg hd1, if_pos hd2]
                    simp)
                rw [decodeLoop_luma _ _ _ _ _ _ hb128 hb192] at h1 h2
                unfold chunkStep at h1 h2
                rcases j with - | j
                · refine ⟨.eofLuma, ?_⟩
                  rw [List.take_zero]
                  simp only [decodeLoop, if_neg (by omega : ¬ (0 : Nat) < 0),
                    if_neg h254, if_neg h255, if_neg h0, if_neg hd1, if_pos hd2]
                rw [List.take_succ_cons, decodeLoop_luma _ _ _ _ _ _ hb128 hb192]
                unfold chunkStep
                refine ih _ _ _ _ j h1 h2 ?_
                simp only [List.length_cons] at hj
                omega
              · simp only [decodeLoop, if_neg (by omega : ¬ (0 : Nat) < 0), if_neg h254,
                  if_neg h255, if_neg h0, if_neg hd1, if_neg hd2] at h1 h2 ⊢
                exact ih _ _ _ _ j h1 h2 (by omega)

/-- A stream shorter than 14 bytes fails header decoding with one of the
per-field truncation errors. -/
theorem DecodeHeader_short (s : List Nat) (h : s.length < 14) :
    ∃ e, DecodeHeader s = .error e ∧ DecodeError.isTruncation (.header e) = true := by
  by_cases h4 : s.length < 4
  · exact ⟨.magicEOF, by simp [DecodeHeader, h4], rfl⟩
  by_cases h8 : s.length < 8
  · exact ⟨.widthEOF, by simp [DecodeHeader, h4, h8], rfl⟩
  by_cases h12 : s.length < 12
  · exact ⟨.heightEOF, by simp [DecodeHeader, h4, h8, h12], rfl⟩
  by_cases h13 : s.length < 13
  · exact ⟨.channelsEOF, by simp [DecodeHeader, h4, h8, h12, h13], rfl⟩
  · exact ⟨.colorspaceEOF, by simp [DecodeHeader, h4, h8, h12, h13, h], rfl⟩

/-- C2: truncating a stream produced by `Encode` at any byte boundary strictly
before its 8-byte end marker makes `Decode` fail with a truncated-stream
error — never a silent success. -/
theorem C2_truncation_safety (src : List Nat) (width height channels : Nat)
    (hw : 1 ≤ width) (hh : 1 ≤ height) (hc : channels = 3 ∨ channels = 4)
    (hlen : src.length = width * height * channels) (hbytes : ∀ b ∈ src, b < 256)
    (hmax : width * height < qoiPixelsMax) (stream : List Nat)
    (henc : Encode src width height = .ok stream) (t : Nat)
    (ht : t < stream.length - 8) :
    ∃ e, (Decode (stream.take t) (width * height * channels)).err = some e
      ∧ e.isTruncation = true := by
  have hmax400 : width * height < 400000000 := hmax
  have hwh32 : width * height < 2 ^ 32 := by omega
  have hw32 : width < 2 ^ 32 := by
    have : width ≤ width * height := Nat.le_mul_of_pos_right width (by omega)
    omega
  have hh32 : height < 2 ^ 32 := by
    have : height ≤ width * height := Nat.le_mul_of_pos_left height (by omega)
    omega
  have hwhb32 : width * height * channels < 2 ^ 32 := by
    rcases hc with h3 | h4
    · subst h3; omega
    · subst h4; omega
  have hwh0 : ¬ width * height = 0 := by simp only [Nat.mul_eq_zero]; omega
  have hbpp : src.length / (width * height) = channels := by
    rw [hlen]
    exact Nat.mul_div_cancel_left channels (by omega)
  have henc2 : Encode src width height
      = .ok (headerBytes width height channels
          ++ encodeLoop (pixelsOfBytes channels (width * height) src) initialCache initPx 0
          ++ qoiEnd) := by
    simp only [Encode]
    rw [if_neg hwh0, if_neg (by omega : ¬ qoiPixelsMax ≤ width * height), hbpp,
      if_neg (by rcases hc with h | h <;> simp [h, hlen])]
  rw [henc2] at henc
  have hs : stream = headerBytes width height channels
      ++ encodeLoop (pixelsOfBytes channels (width * height) src) initialCache initPx 0
      ++ qoiEnd := (Except.ok.inj henc).symm
  set P := pixelsOfBytes channels (width * height) src with hP
  set body := encodeLoop P initialCache initPx 0 with hbody
  have hsim := encodeLoop_decodes P initialCache initialCache initPx 0 []
    initialCache_length initialCache_valid initPx_valid
    (pixelsOfBytes_valid channels (width * height) src hbytes) (Or.inl rfl)
    (Or.inr ⟨rfl, by decide⟩) (by omega) (fun _ => rfl)
  rw [Nat.zero_add, List.append_nil] at hsim
  simp only [List.replicate_zero, List.nil_append] at hsim
  rw [pixelsOfBytes_length] at hsim
  rw [← hbody] at hsim
  have hslen : stream.length = 14 + body.length + 8 := by
    rw [hs]
    simp only [List.length_append, headerBytes_length, ← hbody]
    simp [qoiEnd]
  by_cases h14 : t < 14
  · have hlent : (stream.take t).length < 14 := by
      rw [List.length_take]
      omega
    obtain ⟨e, he, hT⟩ := DecodeHeader_short _ hlent
    refine ⟨.header e, ?_, hT⟩
    simp only [Decode, he]
  · obtain ⟨j, hj⟩ : ∃ j, t = 14 + j := ⟨t - 14, by omega⟩
    subst hj
    have ht2 : j < body.length := by omega
    have htake : stream.take (14 + j)
        = headerBytes width height channels ++ (body ++ qoiEnd).take j := by
      rw [hs, List.append_assoc,
        show (14 : Nat) + j = (headerBytes width height channels).length + j by
          rw [headerBytes_length],
        List.take_append]
    have htake2 : (body ++ qoiEnd).take j = body.take j :=
      List.take_append_of_le_length (by omega)
    rw [htake, htake2]
    obtain ⟨e, he⟩ := decodeLoop_truncated (width * height) body initialCache initPx 0
      j (by rw [hsim]) (by rw [hsim]) ht2
    refine ⟨.body e, ?_, rfl⟩
    simp only [Decode,
      headerBytes_parse width height channels hw32 hh32 hc (body.take j)]
    rw [Nat.mod_eq_of_lt hwh32]
    rw [if_neg hwh0]
    rw [Nat.mod_eq_of_lt hwhb32]
    have hdiv : width * height * channels / channels = width * height :=
      Nat.mul_div_cancel _ (by omega)
    rw [hdiv, if_neg (by omega : ¬ width * height < width * height)]
    rw [headerBytes_drop]
    rcases hr : decodeLoop (width * height) (body.take j) initialCache initPx 0
      with ⟨out, left, err⟩
    rw [hr] at he
    simp only at he
    simp [he]

theorem C2_witness : ∃ e, (Decode (([113, 111, 105, 102, 0, 0, 0, 1, 0, 0, 0, 1, 3, 0, 192,
      0, 0, 0, 0, 0, 0, 0, 1] : List Nat).take 14) (1 * 1 * 3)).err = some e
    ∧ e.isTruncation = true :=
  C2_truncation_safety [0, 0, 0] 1 1 3 (by decide) (by decide) (by decide) (by decide)
    (by decide) (by decide) _ (by rfl) 14 (by decide)

/-! ### Header validation case analysis -/

theorem getD_take_lt (s : List Nat) (n i d : Nat) (h : i < n) :
    (s.take n).getD i d = s.getD i d := by
  simp [List.getD_eq_getElem?_getD, List.getElem?_take, h]

theorem DecodeHeader_magicEOF (s : List Nat) (h : s.length < 4) :
    DecodeHeader s = .error .magicEOF := by
  simp only [DecodeHeader]
  rw [if_pos h]

theorem DecodeHeader_widthEOF (s : List Nat) (h1 : 4 ≤ s.length) (h2 : s.length < 8) :
    DecodeHeader s = .error .widthEOF := by
  simp only [DecodeHeader]
  rw [if_neg (by omega), if_pos h2]

theorem DecodeHeader_heightEOF (s : List Nat) (h1 : 8 ≤ s.length) (h2 : s.length < 12) :
    DecodeHeader s = .error .heightEOF := by
  simp only [DecodeHeader]
  rw [if_neg (by omega), if_neg (by omega), if_pos h2]

theorem DecodeHeader_channelsEOF (s : List Nat) (h : s.length = 12) :
    DecodeHeader s = .error .channelsEOF := by
  simp only [DecodeHeader]
  rw [if_neg (by omega), if_neg (by omega), if_neg (by omega), if_pos (by omega)]

theorem DecodeHeader_colorspaceEOF (s : List Nat) (h : s.length = 13) :
    DecodeHeader s = .error .colorspaceEOF := by
  simp only [DecodeHeader]
  rw [if_neg (by omega), if_neg (by omega), if_neg (by omega), if_neg (by omega),
    if_pos (by omega)]

theorem DecodeHeader_badMagic (s : List Nat) (h : 14 ≤ s.length)
    (hm : [s.getD 0 0, s.getD 1 0, s.getD 2 0, s.getD 3 0] ≠ qoiMagicBytes) :
    DecodeHeader s = .error .badMagic := by
  simp only [List.getD_eq_getElem?_getD] at hm
  simp only [DecodeHeader, List.getD_eq_getElem?_getD]
  rw [if_neg (by omega), if_neg (by omega), if_neg (by omega), if_neg (by omega),
    if_neg (by omega), if_pos hm]

theorem DecodeHeader_badChannels (s : List Nat) (h : 14 ≤ s.length)
    (hm : [s.getD 0 0, s.getD 1 0, s.getD 2 0, s.getD 3 0] = qoiMagicBytes)
    (hc : ¬ (s.getD 12 0 = 3 ∨ s.getD 12 0 = 4)) :
    DecodeHeader s = .error (.badChannels (s.getD 12 0)) := by
  simp only [List.getD_eq_getElem?_getD] at hm hc
  simp only [DecodeHeader, List.getD_eq_getElem?_getD]
  rw [if_neg (by omega), if_neg (by omega), if_neg (by omega), if_neg (by omega),
    if_neg (by omega), if_neg (by simp [hm]), if_pos (by omega)]

theorem DecodeHeader_badColorspace (s : List Nat) (h : 14 ≤ s.length)
    (hm : [s.getD 0 0, s.getD 1 0, s.getD 2 0, s.getD 3 0] = qoiMagicBytes)
    (hc : s.getD 12 0 = 3 ∨ s.getD 12 0 = 4)
    (hcs : ¬ (s.getD 13 0 = 0 ∨ s.getD 13 0 = 1)) :
    DecodeHeader s = .error (.badColorspace (s.getD 13 0)) := by
  simp only [List.getD_eq_getElem?_getD] at hm hc hcs
  simp only [DecodeHeader, List.getD_eq_getElem?_getD]
  rw [if_neg (by omega), if_neg (by omega), if_neg (by omega), if_neg (by omega),
    if_neg (by omega), if_neg (by simp [hm]), if_neg (by omega), if_pos (by omega)]

/-- `DecodeHeader` reads exactly the first 14 bytes: two streams agreeing on
them decode to the same result. -/
theorem DecodeHeader_take14_eq (s u : List Nat) (h : s.take 14 = u.take 14) :
    DecodeHeader s = DecodeHeader u := by
  have hmin : min 14 s.length = min 14 u.length := by
    rw [← List.length_take, h, List.length_take]
  by_cases h14 : s.length < 14
  · have hu : u.length = s.length := by omega
    by_cases c4 : s.length < 4
    · rw [DecodeHeader_magicEOF s c4, DecodeHeader_magicEOF u (by omega)]
    by_cases c8 : s.length < 8
    · rw [DecodeHeader_widthEOF s (by omega) c8, DecodeHeader_widthEOF u (by omega) (by omega)]
    by_cases c12 : s.length < 12
    · rw [DecodeHeader_heightEOF s (by omega) c12,
        DecodeHeader_heightEOF u (by omega) (by omega)]
    by_cases c13 : s.length < 13
    · rw [DecodeHeader_channelsEOF s (by omega), DecodeHeader_channelsEOF u (by omega)]
    · rw [DecodeHeader_colorspaceEOF s (by omega), DecodeHeader_colorspaceEOF u (by omega)]
  · have hu14 : 14 ≤ u.length := by omega
    have hg : ∀ i, i < 14 → s.getD i 0 = u.getD i 0 := by
      intro i hi
      rw [← getD_take_lt s 14 i 0 hi, h, getD_take_lt u 14 i 0 hi]
    have hmagic : [s.getD 0 0, s.getD 1 0, s.getD 2 0, s.getD 3 0]
        = [u.getD 0 0, u.getD 1 0, u.getD 2 0, u.getD 3 0] := by
      rw [hg 0 (by omega), hg 1 (by omega), hg 2 (by omega), hg 3 (by omega)]
    have hch : s.getD 12 0 = u.getD 12 0 := hg 12 (by omega)
    have hcsp : s.getD 13 0 = u.getD 13 0 := hg 13 (by omega)
    have hr4 : rd32At s 4 = rd32At u 4 := by
      unfold rd32At
      rw [hg 4 (by omega), hg 5 (by omega), hg 6 (by omega), hg 7 (by omega)]
    have hr8 : rd32At s 8 = rd32At u 8 := by
      unfold rd32At
      rw [hg 8 (by omega), hg 9 (by omega), hg 10 (by omega), hg 11 (by omega)]
    by_cases m1 : [s.getD 0 0, s.getD 1 0, s.getD 2 0, s.getD 3 0] = qoiMagicBytes
    · by_cases ch : s.getD 12 0 = 3 ∨ s.getD 12 0 = 4
      · by_cases cs : s.getD 13 0 = 0 ∨ s.getD 13 0 = 1
        · rw [DecodeHeader_ok s (by omega) m1 ch cs,
            DecodeHeader_ok u hu14 (hmagic ▸ m1) (hch ▸ ch) (hcsp ▸ cs)]
          rw [hmagic, hch, hcsp, hr4, hr8]
        · rw [DecodeHeader_badColorspace s (by omega) m1 ch cs,
            DecodeHeader_badColorspace u hu14 (hmagic ▸ m1) (hch ▸ ch) (hcsp ▸ cs), hcsp]
      · rw [DecodeHeader_badChannels s (by omega) m1 ch,
          DecodeHeader_badChannels u hu14 (hmagic ▸ m1) (hch ▸ ch), hch]
    · rw [DecodeHeader_badMagic s (by omega) m1,
        DecodeHeader_badMagic u hu14 (hmagic ▸ m1)]

/-- C4: `DecodeHeader` reads exactly 14 bytes in the fixed big-endian layout
and fails with a distinct error exactly when the stream ends inside a field
(one error per field), the magic differs from "qoif", the channel count is
outside {3, 4}, or the colorspace is outside {0, 1}; every 14-byte header
passing those checks is accepted, with no validation of width or height. -/
theorem C4_header_validation (s : List Nat) :
    (∀ u : List Nat, s.take 14 = u.take 14 → DecodeHeader s = DecodeHeader u)
    ∧ (s.length < 4 → DecodeHeader s = .error .magicEOF)
    ∧ (4 ≤ s.length → s.length < 8 → DecodeHeader s = .error .widthEOF)
    ∧ (8 ≤ s.length → s.length < 12 → DecodeHeader s = .error .heightEOF)
    ∧ (s.length = 12 → DecodeHeader s = .error .channelsEOF)
    ∧ (s.length = 13 → DecodeHeader s = .error .colorspaceEOF)
    ∧ (14 ≤ s.length → [s.getD 0 0, s.getD 1 0, s.getD 2 0, s.getD 3 0] ≠ qoiMagicBytes →
        DecodeHeader s = .error .badMagic)
    ∧ (14 ≤ s.length → [s.getD 0 0, s.getD 1 0, s.getD 2 0, s.getD 3 0] = qoiMagicBytes →
        ¬ (s.getD 12 0 = 3 ∨ s.getD 12 0 = 4) →
        DecodeHeader s = .error (.badChannels (s.getD 12 0)))
    ∧ (14 ≤ s.length → [s.getD 0 0, s.getD 1 0, s.getD 2 0, s.getD 3 0] = qoiMagicBytes →
        (s.getD 12 0 = 3 ∨ s.getD 12 0 = 4) → ¬ (s.getD 13 0 = 0 ∨ s.getD 13 0 = 1) →
        DecodeHeader s = .error (.badColorspace (s.getD 13 0)))
    ∧ (14 ≤ s.length → [s.getD 0 0, s.getD 1 0, s.getD 2 0, s.getD 3 0] = qoiMagicBytes →
        (s.getD 12 0 = 3 ∨ s.getD 12 0 = 4) → (s.getD 13 0 = 0 ∨ s.getD 13 0 = 1) →
        DecodeHeader s = .ok ⟨[s.getD 0 0, s.getD 1 0, s.getD 2 0, s.getD 3 0],
          rd32At s 4, rd32At s 8, s.getD 12 0, s.getD 13 0⟩) :=
  ⟨fun u hu => DecodeHeader_take14_eq s u hu,
   DecodeHeader_magicEOF s,
   DecodeHeader_widthEOF s,
   DecodeHeader_heightEOF s,
   DecodeHeader_channelsEOF s,
   DecodeHeader_colorspaceEOF s,
   DecodeHeader_badMagic s,
   DecodeHeader_badChannels s,
   DecodeHeader_badColorspace s,
   DecodeHeader_ok s⟩

theorem C4_witness :
    DecodeHeader [113, 111, 105, 102, 0, 0, 0, 2, 0, 0, 0, 0, 4, 1]
      = .ok ⟨[113, 111, 105, 102], 2, 0, 4, 1⟩ := by
  have h := (C4_header_validation
    [113, 111, 105, 102, 0, 0, 0, 2, 0, 0, 0, 0, 4, 1]).2.2.2.2.2.2.2.2.2
    (by decide) (by decide) (by decide) (by decide)
  simpa [rd32At] using h

/-! ### Run boundary -/

/-- Counting 62 consecutive pixels equal to the previous pixel flushes exactly
one RUN byte, with value 61, before anything else is emitted. -/
theorem encodeLoop_run62 (p d : Pixel) (rest cache : List Pixel) :
    ∀ (j run : Nat), run + j = 62 → 1 ≤ j →
    encodeLoop (List.replicate j p ++ d :: rest) cache p run
      = 253 :: encodeLoop (d :: rest) cache p 0 := by
  intro j
  induction j with
  | zero => intro run _ h1; omega
  | succ k ih =>
    intro run hsum _
    rw [List.replicate_succ, List.cons_append]
    simp only [encodeLoop, if_true]
    by_cases hk : k = 0
    · subst hk
      rw [if_pos (Or.inl (by omega))]
      simp only [List.replicate_zero, List.nil_append]
      have : run = 61 := by omega
      subst this
      rfl
    · rw [if_neg (by
        push_neg
        refine ⟨by omega, ?_⟩
        simp [List.append_eq_nil])]
      exact ih (run + 1) (by omega) (by omega)

/-- The same flush, seen through the recorded run values. -/
theorem encRunValues_run62 (p d : Pixel) (rest cache : List Pixel) :
    ∀ (j run : Nat), run + j = 62 → 1 ≤ j →
    encRunValues (List.replicate j p ++ d :: rest) cache p run
      = 61 :: encRunValues (d :: rest) cache p 0 := by
  intro j
  induction j with
  | zero => intro run _ h1; omega
  | succ k ih =>
    intro run hsum _
    rw [List.replicate_succ, List.cons_append]
    simp only [encRunValues, if_true]
    by_cases hk : k = 0
    · subst hk
      rw [if_pos (Or.inl (by omega))]
      simp only [List.replicate_zero, List.nil_append]
      have : run = 61 := by omega
      subst this
      rfl
    · rw [if_neg (by
        push_neg
        refine ⟨by omega, ?_⟩
        simp [List.append_eq_nil])]
      exact ih (run + 1) (by omega) (by omega)

/-- The first byte emitted for a pixel that differs from the previous pixel is
never a RUN tag byte (RUN tags occupy `[192, 253]`). -/
theorem encodeLoop_headD (d px : Pixel) (rest cache : List Pixel) (hd : ¬ d = px) :
    (encodeLoop (d :: rest) cache px 0).headD 0 < 192
      ∨ 254 ≤ (encodeLoop (d :: rest) cache px 0).headD 0 := by
  simp only [encodeLoop, if_neg hd, if_neg (by omega : ¬ (0 : Nat) < 0), List.nil_append]
  by_cases hhit : cache.getD (posOf d) zeroPx = d
  · rw [if_pos hhit]
    left
    simp only [List.headD_cons]
    have := posOf_lt d
    omega
  · rw [if_neg hhit]
    simp only [encChunkBytes]
    by_cases ha : d.a = px.a
    · rw [if_pos ha]
      set vr := toInt8 ((d.r : Int) - (px.r : Int)) with hvr
      set vg := toInt8 ((d.g : Int) - (px.g : Int)) with hvg
      set vb := toInt8 ((d.b : Int) - (px.b : Int)) with hvb
      have hvr8 : -128 ≤ vr ∧ vr < 128 := hvr ▸ toInt8_bounds _
      have hvg8 : -128 ≤ vg ∧ vg < 128 := hvg ▸ toInt8_bounds _
      have hvb8 : -128 ≤ vb ∧ vb < 128 := hvb ▸ toInt8_bounds _
      by_cases hdiff : -3 < vr ∧ vr < 2 ∧ -3 < vg ∧ vg < 2 ∧ -3 < vb ∧ vb < 2
      · rw [if_pos hdiff]
        left
        simp only [List.cons_append, List.headD_cons]
        obtain ⟨d1, d2, d3, d4, d5, d6⟩ := hdiff
        have hx : (vr + 2).toNat ≤ 3 := by omega
        have hy : (vg + 2).toNat ≤ 3 := by omega
        have hz : (vb + 2).toNat ≤ 3 := by omega
        omega
      · rw [if_neg hdiff]
        by_cases hluma : -9 < toInt8 (vr - vg) ∧ toInt8 (vr - vg) < 8 ∧ -33 < vg ∧ vg < 32
            ∧ -9 < toInt8 (vb - vg) ∧ toInt8 (vb - vg) < 8
        · rw [if_pos hluma]
          left
          simp only [List.cons_append, List.headD_cons]
          obtain ⟨-, -, l3, l4, -, -⟩ := hluma
          have ht : (vg + 32).toNat ≤ 63 := by omega
          omega
        · rw [if_neg hluma]
          right
          simp [List.cons_append, List.headD_cons]
    · rw [if_neg ha]
      right
      simp [List.cons_append, List.headD_cons]

/-- No RUN chunk is ever emitted with a value above 61, from any reachable
encoder state. -/
theorem encRunValues_bound (pixels : List Pixel) : ∀ (cache : List Pixel) (px : Pixel)
    (run : Nat), run ≤ 61 →
    (encRunValues pixels cache px run).all (fun v => decide (v ≤ 61)) = true := by
  induction pixels with
  | nil => intro cache px run _; rfl
  | cons p rest ih =>
    intro cache px run hrun
    simp only [encRunValues]
    by_cases hpp : p = px
    · rw [if_pos hpp]
      by_cases hfl : run + 1 = 62 ∨ rest = []
      · rw [if_pos hfl]
        simp only [List.all_cons, Bool.and_eq_true, decide_eq_true_eq]
        exact ⟨hrun, ih cache px 0 (by omega)⟩
      · rw [if_neg hfl]
        push_neg at hfl
        exact ih cache px (run + 1) (by omega)
    · rw [if_neg hpp]
      rw [List.all_append]
      have hpre : (if 0 < run then [run - 1] else []).all (fun v => decide (v ≤ 61)) = true := by
        by_cases hr : 0 < run
        · rw [if_pos hr]; simp; omega
        · rw [if_neg hr]; rfl
      rw [hpre, Bool.true_and]
      by_cases hhit : cache.getD (posOf p) zeroPx = p
      · rw [if_pos hhit]; exact ih cache p 0 (by omega)
      · rw [if_neg hhit]; exact ih (cache.set (posOf p) p) p 0 (by omega)

/-- C5: a span of 62 pixels counted into the run (62 identical consecutive
pixels, each equal to its predecessor) followed by a different pixel `d`
yields exactly one RUN chunk, the byte 253 carrying value 61, emitted before
`d`'s chunk, whose first byte is not a RUN tag; and no reachable encoder state
ever records a RUN value ≥ 62. -/
theorem C5_run_boundary (p d : Pixel) (rest cache : List Pixel)
    (pixels cache2 : List Pixel) (px : Pixel) (run : Nat)
    (hd : d ≠ p) (hrun : run ≤ 61) :
    encodeLoop (List.replicate 62 p ++ d :: rest) cache p 0
      = 253 :: encodeLoop (d :: rest) cache p 0
    ∧ encRunValues (List.replicate 62 p ++ d :: rest) cache p 0
      = 61 :: encRunValues (d :: rest) cache p 0
    ∧ ((encodeLoop (d :: rest) cache p 0).headD 0 < 192
        ∨ 254 ≤ (encodeLoop (d :: rest) cache p 0).headD 0)
    ∧ (encRunValues pixels cache2 px run).all (fun v => decide (v ≤ 61)) = true :=
  ⟨encodeLoop_run62 p d rest cache 62 0 (by omega) (by omega),
   encRunValues_run62 p d rest cache 62 0 (by omega) (by omega),
   encodeLoop_headD d p rest cache hd,
   encRunValues_bound pixels cache2 px run hrun⟩

theorem C5_witness :
    encodeLoop (List.replicate 62 initPx ++ (⟨1, 2, 3, 255⟩ : Pixel) :: []) initialCache initPx 0
      = 253 :: encodeLoop ((⟨1, 2, 3, 255⟩ : Pixel) :: []) initialCache initPx 0
    ∧ encRunValues (List.replicate 62 initPx ++ (⟨1, 2, 3, 255⟩ : Pixel) :: [])
        initialCache initPx 0
      = 61 :: encRunValues ((⟨1, 2, 3, 255⟩ : Pixel) :: []) initialCache initPx 0
    ∧ ((encodeLoop ((⟨1, 2, 3, 255⟩ : Pixel) :: []) initialCache initPx 0).headD 0 < 192
        ∨ 254 ≤ (encodeLoop ((⟨1, 2, 3, 255⟩ : Pixel) :: []) initialCache initPx 0).headD 0)
    ∧ (encRunValues [(⟨1, 2, 3, 255⟩ : Pixel)] initialCache initPx 0).all
        (fun v => decide (v ≤ 61)) = true :=
  C5_run_boundary initPx ⟨1, 2, 3, 255⟩ [] initialCache [⟨1, 2, 3, 255⟩] initialCache initPx 0
    (by decide) (by decide)

/-! ### The LUMA chunk -/

/-- The LUMA pixel update exactly as the spec words it: `dg` is the tag byte's
low 6 bits minus 32; green gets `dg`, red gets `dg - 8 + (b2 >> 4)`, blue gets
`dg - 8 + (b2 & 0x0F)`, every addition wrapping mod 256; alpha unchanged. -/
def specLuma (px : Pixel) (b1 b2 : Nat) : Pixel :=
  ⟨(((px.r : Int) + (((b1 % 64 : Nat) : Int) - 32 - 8 + ((b2 / 16 % 16 : Nat) : Int)))
      % 256).toNat,
   (((px.g : Int) + (((b1 % 64 : Nat) : Int) - 32)) % 256).toNat,
   (((px.b : Int) + (((b1 % 64 : Nat) : Int) - 32 - 8 + ((b2 % 16 : Nat) : Int)))
      % 256).toNat,
   px.a⟩

/-- The decoder's byte-wise LUMA computation agrees with the spec formula. -/
theorem specLuma_decodes (n b1 b2 : Nat) (bs : List Nat) (cache : List Pixel)
    (px : Pixel) (hpx : px.valid) (h128 : 128 ≤ b1) (h192 : b1 < 192) :
    decodeLoop (n + 1) (b1 :: b2 :: bs) cache px 0
      = chunkStep (specLuma px b1 b2) n bs cache := by
  rw [decodeLoop_luma n b1 b2 bs cache px h128 h192]
  obtain ⟨hr, hg, hb, -⟩ := hpx
  have hpix : (⟨(px.r + (((b1 % 64 + 224) % 256 + 248) % 256 + b2 / 16 % 16) % 256) % 256,
      (px.g + (b1 % 64 + 224) % 256) % 256,
      (px.b + (((b1 % 64 + 224) % 256 + 248) % 256 + b2 % 16) % 256) % 256,
      px.a⟩ : Pixel) = specLuma px b1 b2 := by
    simp only [specLuma, Pixel.mk.injEq]
    refine ⟨?_, ?_, ?_, trivial⟩ <;> omega
  rw [hpix]

/-- C6: a LUMA chunk (tag byte with top bits `10`, second byte `b2`) makes the
decoder add the green delta `dg = low6(b1) - 32` to green, `dg - 8 + (b2 >> 4)`
to red and `dg - 8 + (b2 & 0x0F)` to blue, all wrapping mod 256 with alpha
unchanged; and this exactly inverts the encoder's LUMA packing (green byte
biased +32, the second byte packing the two green-relative deltas biased
+8). -/
theorem C6_luma_decode_inverts (n b1 b2 : Nat) (bs : List Nat) (cache : List Pixel)
    (px p : Pixel) (hpx : px.valid) (hp : p.valid) (hb1 : 128 ≤ b1) (hb1b : b1 < 192)
    (ha : p.a = px.a)
    (hdiff : ¬ (-3 < toInt8 ((p.r : Int) - px.r) ∧ toInt8 ((p.r : Int) - px.r) < 2
      ∧ -3 < toInt8 ((p.g : Int) - px.g) ∧ toInt8 ((p.g : Int) - px.g) < 2
      ∧ -3 < toInt8 ((p.b : Int) - px.b) ∧ toInt8 ((p.b : Int) - px.b) < 2))
    (hluma : -9 < toInt8 (toInt8 ((p.r : Int) - px.r) - toInt8 ((p.g : Int) - px.g))
      ∧ toInt8 (toInt8 ((p.r : Int) - px.r) - toInt8 ((p.g : Int) - px.g)) < 8
      ∧ -33 < toInt8 ((p.g : Int) - px.g) ∧ toInt8 ((p.g : Int) - px.g) < 32
      ∧ -9 < toInt8 (toInt8 ((p.b : Int) - px.b) - toInt8 ((p.g : Int) - px.g))
      ∧ toInt8 (toInt8 ((p.b : Int) - px.b) - toInt8 ((p.g : Int) - px.g)) < 8) :
    decodeLoop (n + 1) (b1 :: b2 :: bs) cache px 0
      = chunkStep (specLuma px b1 b2) n bs cache
    ∧ encChunkBytes p px
      = [128 + (toInt8 ((p.g : Int) - px.g) + 32).toNat,
         16 * (toInt8 (toInt8 ((p.r : Int) - px.r) - toInt8 ((p.g : Int) - px.g)) + 8).toNat
           + (toInt8 (toInt8 ((p.b : Int) - px.b) - toInt8 ((p.g : Int) - px.g)) + 8).toNat]
    ∧ specLuma px (128 + (toInt8 ((p.g : Int) - px.g) + 32).toNat)
        (16 * (toInt8 (toInt8 ((p.r : Int) - px.r) - toInt8 ((p.g : Int) - px.g)) + 8).toNat
          + (toInt8 (toInt8 ((p.b : Int) - px.b) - toInt8 ((p.g : Int) - px.g)) + 8).toNat)
      = p := by
  have hbytes : encChunkBytes p px
      = [128 + (toInt8 ((p.g : Int) - px.g) + 32).toNat,
         16 * (toInt8 (toInt8 ((p.r : Int) - px.r) - toInt8 ((p.g : Int) - px.g)) + 8).toNat
           + (toInt8 (toInt8 ((p.b : Int) - px.b) - toInt8 ((p.g : Int) - px.g)) + 8).toNat] := by
    simp only [encChunkBytes]
    rw [if_pos ha, if_neg hdiff, if_pos hluma]
  refine ⟨specLuma_decodes n b1 b2 bs cache px hpx hb1 hb1b, hbytes, ?_⟩
  obtain ⟨-, -, l3, l4, -, -⟩ := hluma
  have hvg8 : -128 ≤ toInt8 ((p.g : Int) - px.g) ∧ toInt8 ((p.g : Int) - px.g) < 128 :=
    toInt8_bounds _
  have hB1a : 128 ≤ 128 + (toInt8 ((p.g : Int) - px.g) + 32).toNat := by omega
  have hB1b : 128 + (toInt8 ((p.g : Int) - px.g) + 32).toNat < 192 := by omega
  have h1 := specLuma_decodes 0 (128 + (toInt8 ((p.g : Int) - px.g) + 32).toNat)
    (16 * (toInt8 (toInt8 ((p.r : Int) - px.r) - toInt8 ((p.g : Int) - px.g)) + 8).toNat
      + (toInt8 (toInt8 ((p.b : Int) - px.b) - toInt8 ((p.g : Int) - px.g)) + 8).toNat)
    [] cache px hpx hB1a hB1b
  have h2 := chunk_decodes p px hp hpx 0 [] cache
  rw [hbytes] at h2
  simp only [List.cons_append, List.nil_append] at h2
  have heq := h1.symm.trans h2
  unfold chunkStep at heq
  simp only [Prod.mk.injEq, List.cons.injEq] at heq
  exact heq.1.1

theorem C6_witness :
    decodeLoop (0 + 1) (170 :: 136 :: []) initialCache initPx 0
      = chunkStep (specLuma initPx 170 136) 0 [] initialCache
    ∧ encChunkBytes ⟨10, 10, 10, 255⟩ initPx
      = [128 + (toInt8 (((10 : Nat) : Int) - (0 : Nat)) + 32).toNat,
         16 * (toInt8 (toInt8 (((10 : Nat) : Int) - (0 : Nat))
             - toInt8 (((10 : Nat) : Int) - (0 : Nat))) + 8).toNat
           + (toInt8 (toInt8 (((10 : Nat) : Int) - (0 : Nat))
             - toInt8 (((10 : Nat) : Int) - (0 : Nat))) + 8).toNat]
    ∧ specLuma initPx (128 + (toInt8 (((10 : Nat) : Int) - (0 : Nat)) + 32).toNat)
        (16 * (toInt8 (toInt8 (((10 : Nat) : Int) - (0 : Nat))
            - toInt8 (((10 : Nat) : Int) - (0 : Nat))) + 8).toNat
          + (toInt8 (toInt8 (((10 : Nat) : Int) - (0 : Nat))
            - toInt8 (((10 : Nat) : Int) - (0 : Nat))) + 8).toNat)
      = ⟨10, 10, 10, 255⟩ :=
  C6_luma_decode_inverts 0 170 136 [] initialCache initPx ⟨10, 10, 10, 255⟩
    (by decide) (by decide) (by decide) (by decide) (by decide) (by decide) (by decide)

/-! ### Cache writes per decode iteration -/

/-- C7 (counterexample): decoding a valid 1×2 stream whose body is the single
RUN chunk byte 193 takes two loop iterations (two pixels are produced), yet
only one cache-write statement executes — the iteration consumed from the
pending run performs none.  This refutes the claim that the cache write
happens unconditionally on every iteration. -/
theorem C7_counterexample :
    Decode [113, 111, 105, 102, 0, 0, 0, 1, 0, 0, 0, 2, 3, 0, 193,
            0, 0, 0, 0, 0, 0, 0, 1] 6
      = ⟨6, 1, 2, false, none, [0, 0, 0, 0, 0, 0]⟩
    ∧ (decodeLoop 2 [193, 0, 0, 0, 0, 0, 0, 0, 1] initialCache initPx 0).1.length = 2
    ∧ decodeLoopWrites 2 [193, 0, 0, 0, 0, 0, 0, 0, 1] initialCache initPx 0 = 1 :=
  ⟨rfl, rfl, rfl⟩

/-- C7 (amended): the decode loop writes the cache only on iterations that
read a chunk (RUN tag iterations included, where the value may be rewritten
unchanged); an iteration consumed from a pending run writes nothing, but its
pixel's slot already holds that pixel, so the variant that writes the cache
unconditionally on every iteration computes exactly the same result — in
particular from the start of any decode call, where no run is pending. -/
theorem C7_run_iterations_skip_redundant_write : ∀ (n : Nat) (bytes : List Nat)
    (cache : List Pixel) (px : Pixel) (run : Nat), cache.length = 64 →
    (0 < run → cache.getD (posOf px) zeroPx = px) →
    decodeLoopW n bytes cache px run = decodeLoop n bytes cache px run := by
  intro n
  induction n with
  | zero => intro bytes cache px run _ _; rfl
  | succ m ih =>
    intro bytes cache px run hlen hinv
    by_cases hrun : 0 < run
    · have hset : cache.set (posOf px) px = cache :=
        set_same cache _ px zeroPx (hlen ▸ posOf_lt px) (hinv hrun)
      simp only [decodeLoopW, decodeLoop, if_pos hrun, hset]
      rw [ih bytes cache px (run - 1) hlen (fun _ => hinv hrun)]
    · replace hrun : run = 0 := by omega
      subst hrun
      rcases bytes with - | ⟨b1, bs⟩
      · rfl
      simp only [decodeLoopW, decodeLoop, if_neg (by omega : ¬ (0 : Nat) < 0)]
      by_cases h254 : b1 = 254
      · subst h254
        simp only [if_true]
        rcases bs with - | ⟨rB, bs⟩
        · rfl
        rcases bs with - | ⟨gB, bs⟩
        · rfl
        rcases bs with - | ⟨bB, bs⟩
        · rfl
        simp only
        rw [ih bs _ _ 0 (by simp [hlen]) (fun h => absurd h (by omega))]
      · rw [if_neg h254, if_neg h254]
        by_cases h255 : b1 = 255
        · subst h255
          simp only [if_true]
          rcases bs with - | ⟨rB, bs⟩
          · rfl
          rcases bs with - | ⟨gB, bs⟩
          · rfl
          rcases bs with - | ⟨bB, bs⟩
          · rfl
          rcases bs with - | ⟨aB, bs⟩
          · rfl
          simp only
          rw [ih bs _ _ 0 (by simp [hlen]) (fun h => absurd h (by omega))]
        · rw [if_neg h255, if_neg h255]
          by_cases h0 : b1 / 64 = 0
          · simp only [if_pos h0]
            rw [ih bs _ _ 0 (by simp [hlen]) (fun h => absurd h (by omega))]
          · rw [if_neg h0, if_neg h0]
            by_cases hd1 : b1 / 64 = 1
            · simp only [if_pos hd1]
              rw [ih bs _ _ 0 (by simp [hlen]) (fun h => absurd h (by omega))]
            · rw [if_neg hd1, if_neg hd1]
              by_cases hd2 : b1 / 64 = 2
              · simp only [if_pos hd2]
                rcases bs with - | ⟨b2, bs⟩
                · rfl
                simp only
                rw [ih bs _ _ 0 (by simp [hlen]) (fun h => absurd h (by omega))]
              · rw [if_neg hd2, if_neg hd2]
                rw [ih bs (cache.set (posOf px) px) px (b1 % 64) (by simp [hlen])
                  (fun _ => getD_set_self cache (posOf px) px zeroPx
                    (hlen ▸ posOf_lt px))]

theorem C7_witness :
    decodeLoopW 2 [193, 0, 0, 0, 0, 0, 0, 0, 1] initialCache initPx 0
      = decodeLoop 2 [193, 0, 0, 0, 0, 0, 0, 0, 1] initialCache initPx 0 :=
  C7_run_iterations_skip_redundant_write 2 [193, 0, 0, 0, 0, 0, 0, 0, 1] initialCache
    initPx 0 (by decide) (fun h => absurd h (by decide))

/-! ### Destination capacity and write bounds -/

/-- A header accepted by `DecodeHeader` always carries 3 or 4 channels. -/
theorem DecodeHeader_channels (s : List Nat) (h : Header) (hdr : DecodeHeader s = .ok h) :
    h.channels = 3 ∨ h.channels = 4 := by
  by_cases c1 : s.length < 4
  · rw [DecodeHeader_magicEOF s c1] at hdr; exact absurd hdr (by simp)
  by_cases c2 : s.length < 8
  · rw [DecodeHeader_widthEOF s (by omega) c2] at hdr; exact absurd hdr (by simp)
  by_cases c3 : s.length < 12
  · rw [DecodeHeader_heightEOF s (by omega) c3] at hdr; exact absurd hdr (by simp)
  by_cases c4 : s.length < 13
  · rw [DecodeHeader_channelsEOF s (by omega)] at hdr; exact absurd hdr (by simp)
  by_cases c5 : s.length < 14
  · rw [DecodeHeader_colorspaceEOF s (by omega)] at hdr; exact absurd hdr (by simp)
  by_cases m1 : [s.getD 0 0, s.getD 1 0, s.getD 2 0, s.getD 3 0] = qoiMagicBytes
  · by_cases ch : s.getD 12 0 = 3 ∨ s.getD 12 0 = 4
    · by_cases cs : s.getD 13 0 = 0 ∨ s.getD 13 0 = 1
      · rw [DecodeHeader_ok s (by omega) m1 ch cs] at hdr
        have := Except.ok.inj hdr
        rw [← this]
        exact ch
      · rw [DecodeHeader_badColorspace s (by omega) m1 ch cs] at hdr
        exact absurd hdr (by simp)
    · rw [DecodeHeader_badChannels s (by omega) m1 ch] at hdr
      exact absurd hdr (by simp)
  · rw [DecodeHeader_badMagic s (by omega) m1] at hdr
    exact absurd hdr (by simp)

theorem bytesOfPixels_length (bpp : Nat) (hbpp : bpp = 3 ∨ bpp = 4) :
    ∀ pxs : List Pixel, (bytesOfPixels bpp pxs).length = pxs.length * bpp := by
  intro pxs
  induction pxs with
  | nil => simp [bytesOfPixels]
  | cons p ps ih =>
    simp only [bytesOfPixels, List.length_append, ih, List.length_cons]
    rcases hbpp with h | h <;> subst h <;> simp [pixelBytes] <;> omega

theorem decodeLoop_length_le : ∀ (n : Nat) (bytes : List Nat) (cache : List Pixel)
    (px : Pixel) (run : Nat), (decodeLoop n bytes cache px run).1.length ≤ n := by
  intro n
  induction n with
  | zero => intro bytes cache px run; simp [decodeLoop_zero]
  | succ m ih =>
    intro bytes cache px run
    by_cases hrun : 0 < run
    · simp only [decodeLoop, if_pos hrun, List.length_cons]
      exact Nat.succ_le_succ (ih bytes cache px (run - 1))
    · replace hrun : run = 0 := by omega
      subst hrun
      rcases bytes with - | ⟨b1, bs⟩
      · simp [decodeLoop]
      simp only [decodeLoop, if_neg (by omega : ¬ (0 : Nat) < 0)]
      by_cases h254 : b1 = 254
      · subst h254
        simp only [if_true]
        rcases bs with - | ⟨rB, bs⟩
        · simp
        rcases bs with - | ⟨gB, bs⟩
        · simp
        rcases bs with - | ⟨bB, bs⟩
        · simp
        simp only [List.length_cons]
        exact Nat.succ_le_succ (ih bs _ _ 0)
      · rw [if_neg h254]
        by_cases h255 : b1 = 255
        · subst h255
          simp only [if_true]
          rcases bs with - | ⟨rB, bs⟩
          · simp
          rcases bs with - | ⟨gB, bs⟩
          · simp
          rcases bs with - | ⟨bB, bs⟩
          · simp
          rcases bs with - | ⟨aB, bs⟩
          · simp
          simp only [List.length_cons]
          exact Nat.succ_le_succ (ih bs _ _ 0)
        · rw [if_neg h255]
          by_cases h0 : b1 / 64 = 0
          · simp only [if_pos h0, List.length_cons]
            exact Nat.succ_le_succ (ih bs _ _ 0)
          · rw [if_neg h0]
            by_cases hd1 : b1 / 64 = 1
            · simp only [if_pos hd1, List.length_cons]
              exact Nat.succ_le_succ (ih bs _ _ 0)
            · rw [if_neg hd1]
              by_cases hd2 : b1 / 64 = 2
              · simp only [if_pos hd2]
                rcases bs with - | ⟨b2, bs⟩
                · simp
                simp only [List.length_cons]
                exact Nat.succ_le_succ (ih bs _ _ 0)
              · rw [if_neg hd2]
                simp only [List.length_cons]
                exact Nat.succ_le_succ (ih bs _ _ (b1 % 64))

theorem drop_write_window (w d : List Nat) (k : Nat) (h : w.length ≤ k) :
    (w ++ d.drop w.length).drop k = d.drop k := by
  obtain ⟨j, hj⟩ : ∃ j, k = w.length + j := ⟨k - w.length, by omega⟩
  subst hj
  rw [List.drop_append, List.drop_drop]

/-- C8 (counterexample): a destination of length `2 ^ 32` is ample for the
3-byte 1×1 image, yet `Decode` reports a capacity error, writes nothing and
consumes nothing past the header — because the capacity check truncates
`len(dest)` to `uint32`. -/
theorem C8_counterexample :
    Decode [113, 111, 105, 102, 0, 0, 0, 1, 0, 0, 0, 1, 3, 0, 192,
            0, 0, 0, 0, 0, 0, 0, 1] (2 ^ 32)
      = ⟨0, 0, 0, false, some .capacity, []⟩
    ∧ 1 * 1 * 3 ≤ 2 ^ 32 :=
  ⟨rfl, by decide⟩

theorem drop_append_exact (P X : List Nat) (k : Nat) (h : P.length = k) :
    (P ++ X).drop k = X := by
  rw [← h, List.drop_left]

/-- C8 (amended): for `Decode`, the capacity check compares against the
destination length reduced mod `2 ^ 32` (the `uint32` conversion in the
source): if `⌊(len(dest) mod 2^32) / channels⌋ < width*height` the call fails
with the capacity error, with nothing written, the destination unchanged, and
no byte beyond the 14-byte header affecting the result; otherwise everything
written lies inside the first `width*height*channels` bytes of the destination
and every byte beyond that window is unchanged.  `DecodeIntoBuffer` compares
the untruncated length and behaves exactly as the original claim states: on a
too-small destination it fails with the capacity error, nothing written and no
byte beyond the header affecting the result; otherwise it decodes into the
prefix sub-view of exactly `width*height*channels` bytes, leaving the
remaining capacity untouched. -/
theorem C8_capacity_check_truncates (stream u dest : List Nat) (destLen : Nat) (h : Header)
    (hdr : DecodeHeader stream = .ok h)
    (hnz : ¬ h.width * h.height % 2 ^ 32 = 0)
    (hu : stream.take 14 = u.take 14)
    (hdest : dest.length = destLen) :
    (destLen % 2 ^ 32 / h.channels < h.width * h.height % 2 ^ 32 →
      Decode stream destLen = ⟨0, 0, 0, false, some .capacity, []⟩
      ∧ Decode u destLen = Decode stream destLen
      ∧ (Decode stream destLen).written ++ dest.drop (Decode stream destLen).written.length
        = dest)
    ∧ (¬ destLen % 2 ^ 32 / h.channels < h.width * h.height % 2 ^ 32 →
      (Decode stream destLen).written.length ≤ h.width * h.height % 2 ^ 32 * h.channels
      ∧ ((Decode stream destLen).written
            ++ dest.drop (Decode stream destLen).written.length).drop
          (h.width * h.height % 2 ^ 32 * h.channels)
        = dest.drop (h.width * h.height % 2 ^ 32 * h.channels))
    ∧ (dest.length < h.width * h.height % 2 ^ 32 * h.channels →
      DecodeIntoBuffer stream dest = (none, some .capacity)
      ∧ DecodeIntoBuffer u dest = DecodeIntoBuffer stream dest)
    ∧ (¬ dest.length < h.width * h.height % 2 ^ 32 * h.channels →
      ∃ img, (DecodeIntoBuffer stream dest).1 = some img
        ∧ img.Pix.length = h.width * h.height % 2 ^ 32 * h.channels
        ∧ (img.Pix ++ dest.drop (h.width * h.height % 2 ^ 32 * h.channels)).drop
            (h.width * h.height % 2 ^ 32 * h.channels)
          = dest.drop (h.width * h.height % 2 ^ 32 * h.channels)) := by
  have hdru : DecodeHeader u = .ok h := (DecodeHeader_take14_eq u stream (by rw [hu])).trans hdr
  refine ⟨?_, ?_, ?_, ?_⟩
  · intro hcap
    refine ⟨?_, ?_, ?_⟩
    · simp only [Decode, hdr]
      rw [if_neg hnz, if_pos hcap]
    · simp only [Decode, hdr, hdru]
      rw [if_neg hnz, if_pos hcap, if_neg hnz, if_pos hcap]
    · simp only [Decode, hdr]
      rw [if_neg hnz, if_pos hcap]
      simp
  · intro hcap
    have hch := DecodeHeader_channels stream h hdr
    have hout : (Decode stream destLen).written
        = bytesOfPixels h.channels
            (decodeLoop (h.width * h.height % 2 ^ 32) (stream.drop 14) initialCache
              initPx 0).1 := by
      simp only [Decode, hdr]
      rw [if_neg hnz, if_neg hcap]
    have hlenw : (Decode stream destLen).written.length
        ≤ h.width * h.height % 2 ^ 32 * h.channels := by
      rw [hout, bytesOfPixels_length h.channels hch]
      exact Nat.mul_le_mul_right h.channels
        (decodeLoop_length_le (h.width * h.height % 2 ^ 32) (stream.drop 14)
          initialCache initPx 0)
    exact ⟨hlenw, drop_write_window _ dest _ hlenw⟩
  · intro hcap
    refine ⟨?_, ?_⟩
    · simp only [DecodeIntoBuffer, hdr]
      rw [if_neg hnz, if_pos hcap]
    · simp only [DecodeIntoBuffer, hdr, hdru]
      rw [if_neg hnz, if_pos hcap, if_neg hnz, if_pos hcap]
  · intro hcap
    have hch := DecodeHeader_channels stream h hdr
    have hle := decodeLoop_length_le (h.width * h.height % 2 ^ 32) (stream.drop 14)
      initialCache initPx 0
    simp only [DecodeIntoBuffer, hdr]
    rw [if_neg hnz, if_neg hcap]
    have hPixLen : (bytesOfPixels h.channels
          (decodeLoop (h.width * h.height % 2 ^ 32) (stream.drop 14) initialCache
            initPx 0).1
        ++ (dest.take (h.width * h.height % 2 ^ 32 * h.channels)).drop
          ((decodeLoop (h.width * h.height % 2 ^ 32) (stream.drop 14) initialCache
            initPx 0).1.length * h.channels)).length
        = h.width * h.height % 2 ^ 32 * h.channels := by
      rw [List.length_append, bytesOfPixels_length h.channels hch, List.length_drop,
        List.length_take]
      rcases hch with h3 | h3 <;> rw [h3] at hcap ⊢ <;> omega
    exact ⟨_, rfl, hPixLen, drop_append_exact _ _ _ hPixLen⟩

theorem C8_witness :
    ((Decode [113, 111, 105, 102, 0, 0, 0, 1, 0, 0, 0, 1, 3, 0, 192,
        0, 0, 0, 0, 0, 0, 0, 1] 3).written.length ≤ 1 * 1 % 2 ^ 32 * 3
      ∧ ((Decode [113, 111, 105, 102, 0, 0, 0, 1, 0, 0, 0, 1, 3, 0, 192,
            0, 0, 0, 0, 0, 0, 0, 1] 3).written
          ++ ([7, 7, 7] : List Nat).drop
            (Decode [113, 111, 105, 102, 0, 0, 0, 1, 0, 0, 0, 1, 3, 0, 192,
              0, 0, 0, 0, 0, 0, 0, 1] 3).written.length).drop (1 * 1 % 2 ^ 32 * 3)
        = ([7, 7, 7] : List Nat).drop (1 * 1 % 2 ^ 32 * 3))
    ∧ (∃ img, (DecodeIntoBuffer [113, 111, 105, 102, 0, 0, 0, 1, 0, 0, 0, 1, 3, 0, 192,
          0, 0, 0, 0, 0, 0, 0, 1] [7, 7, 7]).1 = some img
        ∧ img.Pix.length = 1 * 1 % 2 ^ 32 * 3
        ∧ (img.Pix ++ ([7, 7, 7] : List Nat).drop (1 * 1 % 2 ^ 32 * 3)).drop
            (1 * 1 % 2 ^ 32 * 3)
          = ([7, 7, 7] : List Nat).drop (1 * 1 % 2 ^ 32 * 3)) :=
  ⟨(C8_capacity_check_truncates
      [113, 111, 105, 102, 0, 0, 0, 1, 0, 0, 0, 1, 3, 0, 192, 0, 0, 0, 0, 0, 0, 0, 1]
      [113, 111, 105, 102, 0, 0, 0, 1, 0, 0, 0, 1, 3, 0, 192, 0, 0, 0, 0, 0, 0, 0, 1]
      [7, 7, 7] 3 ⟨[113, 111, 105, 102], 1, 1, 3, 0⟩ (by rfl) (by decide) rfl rfl).2.1
    (by decide),
   (C8_capacity_check_truncates
      [113, 111, 105, 102, 0, 0, 0, 1, 0, 0, 0, 1, 3, 0, 192, 0, 0, 0, 0, 0, 0, 0, 1]
      [113, 111, 105, 102, 0, 0, 0, 1, 0, 0, 0, 1, 3, 0, 192, 0, 0, 0, 0, 0, 0, 0, 1]
      [7, 7, 7] 3 ⟨[113, 111, 105, 102], 1, 1, 3, 0⟩ (by rfl) (by decide) rfl rfl).2.2.2
    (by decide)⟩

/-- C10: when a successfully decoded header has `width*height = 0`, `Decode`
returns immediately with no error, zero bytes written, zero width and height
and `includesAlpha = false`, independent of the destination length (no
capacity check) and of every byte beyond the 14-byte header; and
`DecodeIntoBuffer` returns a nil image with a nil error. -/
theorem C10_zero_pixel_headers (stream u dest : List Nat) (destLen destLen2 : Nat)
    (h : Header) (hdr : DecodeHeader stream = .ok h) (hz : h.width * h.height = 0)
    (hu : stream.take 14 = u.take 14) :
    Decode stream destLen = ⟨0, 0, 0, false, none, []⟩
    ∧ Decode stream destLen = Decode stream destLen2
    ∧ Decode u destLen = Decode stream destLen
    ∧ DecodeIntoBuffer stream dest = (none, none) := by
  have hdru : DecodeHeader u = .ok h := (DecodeHeader_take14_eq u stream (by rw [hu])).trans hdr
  have hz2 : h.width * h.height % 2 ^ 32 = 0 := by rw [hz, Nat.zero_mod]
  refine ⟨?_, ?_, ?_, ?_⟩
  · simp only [Decode, hdr]
    rw [if_pos hz2]
  · simp only [Decode, hdr]
    rw [if_pos hz2, if_pos hz2]
  · simp only [Decode, hdr, hdru]
    rw [if_pos hz2, if_pos hz2]
  · simp only [DecodeIntoBuffer, hdr]
    rw [if_pos hz2]

theorem C10_witness :
    Decode [113, 111, 105, 102, 0, 0, 0, 0, 0, 0, 0, 5, 3, 0] 0 = ⟨0, 0, 0, false, none, []⟩
    ∧ Decode [113, 111, 105, 102, 0, 0, 0, 0, 0, 0, 0, 5, 3, 0] 0
      = Decode [113, 111, 105, 102, 0, 0, 0, 0, 0, 0, 0, 5, 3, 0] 99
    ∧ Decode [113, 111, 105, 102, 0, 0, 0, 0, 0, 0, 0, 5, 3, 0, 251] 0
      = Decode [113, 111, 105, 102, 0, 0, 0, 0, 0, 0, 0, 5, 3, 0] 0
    ∧ DecodeIntoBuffer [113, 111, 105, 102, 0, 0, 0, 0, 0, 0, 0, 5, 3, 0] [1, 2]
      = (none, none) :=
  C10_zero_pixel_headers [113, 111, 105, 102, 0, 0, 0, 0, 0, 0, 0, 5, 3, 0]
    [113, 111, 105, 102, 0, 0, 0, 0, 0, 0, 0, 5, 3, 0, 251] [1, 2] 0 99
    ⟨[113, 111, 105, 102], 0, 5, 3, 0⟩ (by rfl) (by decide) (by rfl)

end QOI
